import Mathlib

/-!
Verification development for the potion-matching entity-disambiguation
repository.  The Python sources are shallowly embedded: strings are lists
of characters (ASCII case conventions), floating-point scores are modelled
as rationals, the embedding model is an oracle (a per-call table of cosine
similarities), and wall-clock timing fields are dropped.  The stdlib
`difflib.SequenceMatcher.ratio` used by `fuzzy_match_score` is embedded in
full (position index with autojunk purge, the quadratic longest-match
loop with its j2len dictionary, and the four extension loops).
-/

set_option allowUnsafeReducibility true
attribute [semireducible] Rat.mul Rat.div Rat.inv Rat.add Rat.sub Rat.neg

namespace Potion

/-- Strings are modelled as lists of characters. -/
abbrev Str := List Char

/-- Characters of a Lean string literal. -/
def strL (s : String) : Str := s.data

/-- Python `str.split()` whitespace set (ASCII fragment). -/
def isPySpace (c : Char) : Bool :=
  c == ' ' || c == '\t' || c == '\n' || c == '\r' || c == '\x0b' || c == '\x0c'

/-- Python `str.split()` with no argument: split on whitespace runs,
dropping empty pieces. -/
def pySplit (s : Str) : List Str :=
  (s.splitOnP isPySpace).filter (fun w => !w.isEmpty)

/-- Python `str.lower()` (ASCII fragment). -/
def pyLower (s : Str) : Str := s.map Char.toLower

/-- Python `str.strip()` with no argument (ASCII whitespace fragment). -/
def pyStrip (s : Str) : Str :=
  ((s.dropWhile isPySpace).reverse.dropWhile isPySpace).reverse

/-- Python `str.islower()` (ASCII fragment): at least one cased character
and no upper-case cased character. -/
def pyIsLowerStr (w : Str) : Bool :=
  w.any (fun c => c.isAlpha) && w.all (fun c => !c.isAlpha || c.isLower)

/-- Python `needle in hay` for strings: contiguous substring test. -/
def strContains (needle hay : Str) : Bool :=
  hay.tails.any (fun t => needle.isPrefixOf t)

/-! ### difflib.SequenceMatcher (CPython), specialised to isjunk = None

`SequenceMatcher(None, a, b).ratio()` builds `b2j` (positions of each
element of `b`, with the autojunk purge of popular elements when
`len(b) >= 200`), repeatedly takes the longest matching block, and
returns `2*M / (len(a)+len(b))` where `M` is the total size of the
matching blocks (1.0 when both strings are empty). -/

/-- Positions (ascending) at which character `c` occurs, starting at
index `i`. -/
def indexesFrom (c : Char) : Str → Nat → List Nat
  | [], _ => []
  | d :: ds, i =>
    if d = c then i :: indexesFrom c ds (i + 1) else indexesFrom c ds (i + 1)

/-- The autojunk rule of `SequenceMatcher.__chain_b`: when `len(b) >= 200`,
elements occurring more than `len(b) // 100 + 1` times are purged. -/
def isPopular (b : Str) (c : Char) : Bool :=
  200 ≤ b.length && b.length / 100 + 1 < b.count c

/-- `b2j[c]`: positions of `c` in `b`, empty when `c` was purged as
popular.  `isjunk` is `None` at every call site in the repository, so the
junk purge is empty. -/
def b2jList (b : Str) (c : Char) : List Nat :=
  if isPopular b c then [] else indexesFrom c b 0

/-- Element of `l` at index `i` (`'A'` as the out-of-range default; the
algorithm only reads in-range indices). -/
def chAt (l : Str) (i : Nat) : Char := l.getD i 'A'

/-- State of `find_longest_match`: the current best block. -/
structure FLM where
  besti : Nat
  bestj : Nat
  bestsize : Nat
  deriving DecidableEq, Repr

/-- The inner `for j in b2j.get(a[i], nothing)` loop of
`find_longest_match`: `continue` below `blo`, `break` at `bhi`,
`k = newj2len[j] = j2len.get(j-1, 0) + 1`, and a best-block update on
strict improvement.  `j2` is the previous row, `nj2` the row being
built. -/
def innerLoop (blo bhi i : Nat) (j2 : Nat → Nat) :
    List Nat → (Nat → Nat) → FLM → ((Nat → Nat) × FLM)
  | [], nj2, st => (nj2, st)
  | j :: js, nj2, st =>
    if j < blo then innerLoop blo bhi i j2 js nj2 st
    else if bhi ≤ j then (nj2, st)
    else
      let k := (if j = 0 then 0 else j2 (j - 1)) + 1
      let nj2p := fun jp => if jp = j then k else nj2 jp
      let stp := if st.bestsize < k then FLM.mk (i + 1 - k) (j + 1 - k) k else st
      innerLoop blo bhi i j2 js nj2p stp

/-- The outer `for i in range(alo, ahi)` loop of `find_longest_match`;
`n` counts the remaining iterations. -/
def outerLoop (a b : Str) (blo bhi : Nat) : Nat → Nat → (Nat → Nat) → FLM → FLM
  | 0, _, _, st => st
  | n + 1, i, j2, st =>
    let r := innerLoop blo bhi i j2 (b2jList b (chAt a i)) (fun _ => 0) st
    outerLoop a b blo bhi n (i + 1) r.1 r.2

/-- One step budget of the backward extension loop: each step decrements
`besti`, so `besti - alo` steps always suffice. -/
def extendBackGo (a b : Str) (alo blo : Nat) : Nat → FLM → FLM
  | 0, st => st
  | fuel + 1, st =>
    if alo < st.besti ∧ blo < st.bestj ∧
        chAt a (st.besti - 1) = chAt b (st.bestj - 1) then
      extendBackGo a b alo blo fuel
        (FLM.mk (st.besti - 1) (st.bestj - 1) (st.bestsize + 1))
    else st

/-- First extension loop: grow the block backwards over non-junk equal
characters (the junk set is empty here, so the junk test is `false`). -/
def extendBack (a b : Str) (alo blo : Nat) (st : FLM) : FLM :=
  extendBackGo a b alo blo (st.besti - alo) st

/-- The backward extension satisfies its while-loop recurrence. -/
lemma extendBack_eq (a b : Str) (alo blo : Nat) (st : FLM) :
    extendBack a b alo blo st =
      if alo < st.besti ∧ blo < st.bestj ∧
          chAt a (st.besti - 1) = chAt b (st.bestj - 1) then
        extendBack a b alo blo (FLM.mk (st.besti - 1) (st.bestj - 1) (st.bestsize + 1))
      else st := by
  by_cases h : alo < st.besti ∧ blo < st.bestj ∧
      chAt a (st.besti - 1) = chAt b (st.bestj - 1)
  · rw [if_pos h]
    have hf : st.besti - alo = (st.besti - 1 - alo) + 1 := by omega
    rw [extendBack, hf, extendBackGo, if_pos h]
    rfl
  · rw [if_neg h, extendBack]
    cases hf : st.besti - alo with
    | zero => rfl
    | succ n => rw [extendBackGo, if_neg h]

/-- One step budget of the forward extension loop: each step increments
`bestsize` while `besti + bestsize < ahi`. -/
def extendFwdGo (a b : Str) (ahi bhi : Nat) : Nat → FLM → FLM
  | 0, st => st
  | fuel + 1, st =>
    if st.besti + st.bestsize < ahi ∧ st.bestj + st.bestsize < bhi ∧
        chAt a (st.besti + st.bestsize) = chAt b (st.bestj + st.bestsize) then
      extendFwdGo a b ahi bhi fuel (FLM.mk st.besti st.bestj (st.bestsize + 1))
    else st

/-- Second extension loop: grow the block forwards over non-junk equal
characters. -/
def extendFwd (a b : Str) (ahi bhi : Nat) (st : FLM) : FLM :=
  extendFwdGo a b ahi bhi (ahi - (st.besti + st.bestsize)) st

/-- The forward extension satisfies its while-loop recurrence. -/
lemma extendFwd_eq (a b : Str) (ahi bhi : Nat) (st : FLM) :
    extendFwd a b ahi bhi st =
      if st.besti + st.bestsize < ahi ∧ st.bestj + st.bestsize < bhi ∧
          chAt a (st.besti + st.bestsize) = chAt b (st.bestj + st.bestsize) then
        extendFwd a b ahi bhi (FLM.mk st.besti st.bestj (st.bestsize + 1))
      else st := by
  by_cases h : st.besti + st.bestsize < ahi ∧ st.bestj + st.bestsize < bhi ∧
      chAt a (st.besti + st.bestsize) = chAt b (st.bestj + st.bestsize)
  · rw [if_pos h]
    have hf : ahi - (st.besti + st.bestsize) = (ahi - (st.besti + (st.bestsize + 1))) + 1 := by
      omega
    rw [extendFwd, hf, extendFwdGo, if_pos h]
    rfl
  · rw [if_neg h, extendFwd]
    cases hf : ahi - (st.besti + st.bestsize) with
    | zero => rfl
    | succ n => rw [extendFwdGo, if_neg h]

/-- `find_longest_match(alo, ahi, blo, bhi)`.  The final two extension
loops of the source extend over junk characters only; with `isjunk =
None` the junk set is empty and they never fire, so they are omitted as
identities. -/
def findLongestMatch (a b : Str) (alo ahi blo bhi : Nat) : FLM :=
  let st := outerLoop a b blo bhi (ahi - alo) alo (fun _ => 0) (FLM.mk alo blo 0)
  extendFwd a b ahi bhi (extendBack a b alo blo st)

/-- The best block stays inside the `[alo, ahi) × [blo, bhi)` window. -/
def StOK (alo ahi blo bhi : Nat) (st : FLM) : Prop :=
  alo ≤ st.besti ∧ blo ≤ st.bestj ∧
  st.besti + st.bestsize ≤ ahi ∧ st.bestj + st.bestsize ≤ bhi

lemma innerLoop_stOK (alo ahi blo bhi i : Nat) (j2 : Nat → Nat)
    (hj1 : ∀ j, j2 j ≤ i - alo) (hj2 : ∀ j, j2 j ≤ j + 1 - blo)
    (hal : alo ≤ i) (hah : i < ahi) :
    ∀ (js : List Nat) (nj2 : Nat → Nat) (st : FLM),
      StOK alo ahi blo bhi st →
      (∀ j, nj2 j ≤ i + 1 - alo) → (∀ j, nj2 j ≤ j + 1 - blo) →
      StOK alo ahi blo bhi (innerLoop blo bhi i j2 js nj2 st).2 ∧
      (∀ j, (innerLoop blo bhi i j2 js nj2 st).1 j ≤ i + 1 - alo) ∧
      (∀ j, (innerLoop blo bhi i j2 js nj2 st).1 j ≤ j + 1 - blo) := by
  intro js
  induction js with
  | nil => intro nj2 st hst hn1 hn2; simpa [innerLoop] using ⟨hst, hn1, hn2⟩
  | cons j js ih =>
    intro nj2 st hst hn1 hn2
    by_cases hlo : j < blo
    · simpa [innerLoop, hlo] using ih nj2 st hst hn1 hn2
    · by_cases hhi : bhi ≤ j
      · simpa [innerLoop, hlo, hhi] using ⟨hst, hn1, hn2⟩
      · have hk : (if j = 0 then 0 else j2 (j - 1)) + 1 ≤ i + 1 - alo := by
          by_cases h0 : j = 0
          · rw [if_pos h0]; omega
          · rw [if_neg h0]; have := hj1 (j - 1); omega
        have hk2 : (if j = 0 then 0 else j2 (j - 1)) + 1 ≤ j + 1 - blo := by
          by_cases h0 : j = 0
          · rw [if_pos h0]; subst h0; omega
          · rw [if_neg h0]; have := hj2 (j - 1); omega
        simp only [innerLoop, if_neg (by omega : ¬ j < blo), if_neg hhi]
        apply ih
        · rcases hst with ⟨h1, h2, h3, h4⟩
          by_cases hupd : st.bestsize < (if j = 0 then 0 else j2 (j - 1)) + 1
          · simp only [if_pos hupd, StOK]
            refine ⟨?_, ?_, ?_, ?_⟩ <;> · dsimp only; omega
          · simpa [hupd] using ⟨h1, h2, h3, h4⟩
        · intro jp
          by_cases hjj : jp = j
          · simpa [hjj] using hk
          · simpa [hjj] using hn1 jp
        · intro jp
          by_cases hjj : jp = j
          · simpa [hjj] using hk2
          · simpa [hjj] using hn2 jp

lemma outerLoop_stOK (a b : Str) (alo ahi blo bhi : Nat) :
    ∀ (n i : Nat) (j2 : Nat → Nat) (st : FLM),
      i + n ≤ ahi → alo ≤ i →
      (∀ j, j2 j ≤ i - alo) → (∀ j, j2 j ≤ j + 1 - blo) →
      StOK alo ahi blo bhi st →
      StOK alo ahi blo bhi (outerLoop a b blo bhi n i j2 st) := by
  intro n
  induction n with
  | zero => intro i j2 st _ _ _ _ hst; simpa [outerLoop] using hst
  | succ n ih =>
    intro i j2 st hn hal hj1 hj2 hst
    have hih : i < ahi := by omega
    have h := innerLoop_stOK alo ahi blo bhi i j2 hj1 hj2 hal hih
      (b2jList b (chAt a i)) (fun _ => 0) st hst (fun _ => by simp) (fun _ => by simp)
    simp only [outerLoop]
    exact ih (i + 1) _ _ (by omega) (by omega)
      (fun j => by have := h.2.1 j; omega) (fun j => h.2.2 j) h.1

lemma extendBack_eq_self (a b : Str) (alo blo : Nat) (st : FLM)
    (h : ¬(alo < st.besti ∧ blo < st.bestj ∧
      chAt a (st.besti - 1) = chAt b (st.bestj - 1))) :
    extendBack a b alo blo st = st := by
  rw [extendBack_eq]; exact if_neg h

lemma extendFwd_eq_self (a b : Str) (ahi bhi : Nat) (st : FLM)
    (h : ¬(st.besti + st.bestsize < ahi ∧ st.bestj + st.bestsize < bhi ∧
      chAt a (st.besti + st.bestsize) = chAt b (st.bestj + st.bestsize))) :
    extendFwd a b ahi bhi st = st := by
  rw [extendFwd_eq]; exact if_neg h

lemma extendBackGo_stOK (a b : Str) (alo blo ahi bhi : Nat) :
    ∀ (fuel : Nat) (st : FLM), StOK alo ahi blo bhi st →
      StOK alo ahi blo bhi (extendBackGo a b alo blo fuel st) := by
  intro fuel
  induction fuel with
  | zero => intro st hst; exact hst
  | succ n ih =>
    intro st hst
    rcases hst with ⟨h1, h2, h3, h4⟩
    rw [extendBackGo]
    split
    · rename_i h
      exact ih (FLM.mk (st.besti - 1) (st.bestj - 1) (st.bestsize + 1))
        ⟨by dsimp only; omega, by dsimp only; omega,
          by dsimp only; omega, by dsimp only; omega⟩
    · exact ⟨h1, h2, h3, h4⟩

lemma extendBack_stOK (a b : Str) (alo blo ahi bhi : Nat) (st : FLM)
    (hst : StOK alo ahi blo bhi st) :
    StOK alo ahi blo bhi (extendBack a b alo blo st) :=
  extendBackGo_stOK a b alo blo ahi bhi _ st hst

lemma extendFwdGo_stOK (a b : Str) (alo blo ahi bhi : Nat) :
    ∀ (fuel : Nat) (st : FLM), StOK alo ahi blo bhi st →
      StOK alo ahi blo bhi (extendFwdGo a b ahi bhi fuel st) := by
  intro fuel
  induction fuel with
  | zero => intro st hst; exact hst
  | succ n ih =>
    intro st hst
    rcases hst with ⟨h1, h2, h3, h4⟩
    rw [extendFwdGo]
    split
    · rename_i h
      exact ih (FLM.mk st.besti st.bestj (st.bestsize + 1))
        ⟨by dsimp only; omega, by dsimp only; omega,
          by dsimp only; omega, by dsimp only; omega⟩
    · exact ⟨h1, h2, h3, h4⟩

lemma extendFwd_stOK (a b : Str) (alo blo ahi bhi : Nat) (st : FLM)
    (hst : StOK alo ahi blo bhi st) :
    StOK alo ahi blo bhi (extendFwd a b ahi bhi st) :=
  extendFwdGo_stOK a b alo blo ahi bhi _ st hst

lemma innerLoop_noWindow (blo bhi i : Nat) (j2 : Nat → Nat) (hw : bhi ≤ blo) :
    ∀ (js : List Nat) (nj2 : Nat → Nat) (st : FLM),
      (innerLoop blo bhi i j2 js nj2 st).2 = st := by
  intro js
  induction js with
  | nil => intro nj2 st; simp [innerLoop]
  | cons j js ih =>
    intro nj2 st
    by_cases hlo : j < blo
    · simpa [innerLoop, hlo] using ih nj2 st
    · simp [innerLoop, hlo, if_pos (by omega : bhi ≤ j)]

lemma outerLoop_noWindow (a b : Str) (blo bhi : Nat) (hw : bhi ≤ blo) :
    ∀ (n i : Nat) (j2 : Nat → Nat) (st : FLM),
      outerLoop a b blo bhi n i j2 st = st := by
  intro n
  induction n with
  | zero => intro i j2 st; simp [outerLoop]
  | succ n ih =>
    intro i j2 st
    simp only [outerLoop]
    rw [innerLoop_noWindow blo bhi i j2 hw]
    exact ih (i + 1) _ st

lemma flm_bounds (a b : Str) (alo ahi blo bhi : Nat) :
    0 < (findLongestMatch a b alo ahi blo bhi).bestsize →
    alo ≤ (findLongestMatch a b alo ahi blo bhi).besti ∧
    blo ≤ (findLongestMatch a b alo ahi blo bhi).bestj ∧
    (findLongestMatch a b alo ahi blo bhi).besti +
      (findLongestMatch a b alo ahi blo bhi).bestsize ≤ ahi ∧
    (findLongestMatch a b alo ahi blo bhi).bestj +
      (findLongestMatch a b alo ahi blo bhi).bestsize ≤ bhi := by
  intro hpos
  by_cases hA : alo ≤ ahi
  · by_cases hB : blo ≤ bhi
    · have h0 : StOK alo ahi blo bhi (FLM.mk alo blo 0) := ⟨le_refl _, le_refl _, by simpa, by simpa⟩
      have h1 := outerLoop_stOK a b alo ahi blo bhi (ahi - alo) alo (fun _ => 0)
        (FLM.mk alo blo 0) (by omega) (le_refl _) (fun _ => by simp) (fun _ => by simp) h0
      have h2 := extendBack_stOK a b alo blo ahi bhi _ h1
      have h3 := extendFwd_stOK a b alo blo ahi bhi _ h2
      rcases h3 with ⟨p1, p2, p3, p4⟩
      exact ⟨p1, p2, p3, p4⟩
    · exfalso
      have hw : bhi ≤ blo := by omega
      have ho := outerLoop_noWindow a b blo bhi hw (ahi - alo) alo (fun _ => 0) (FLM.mk alo blo 0)
      have hb := extendBack_eq_self a b alo blo (FLM.mk alo blo 0)
        (by rintro ⟨hc, -, -⟩; exact absurd hc (by dsimp only; omega))
      have hf := extendFwd_eq_self a b ahi bhi (FLM.mk alo blo 0)
        (by rintro ⟨-, hc, -⟩; exact absurd hc (by dsimp only; omega))
      rw [findLongestMatch, ho, hb, hf] at hpos
      simp at hpos
  · exfalso
    have hn : ahi - alo = 0 := by omega
    have hb := extendBack_eq_self a b alo blo (FLM.mk alo blo 0)
      (by rintro ⟨hc, -, -⟩; exact absurd hc (by dsimp only; omega))
    have hf := extendFwd_eq_self a b ahi bhi (FLM.mk alo blo 0)
      (by rintro ⟨hc, -, -⟩; exact absurd hc (by dsimp only; omega))
    rw [findLongestMatch, hn] at hpos
    simp only [outerLoop] at hpos
    rw [hb, hf] at hpos
    simp at hpos

/-- Fuel-driven recursion computing the total size of the matching
blocks; `(ahi - alo) + (bhi - blo)` strictly decreases at each split, so
that budget plus one always suffices. -/
def matchTotalGo (a b : Str) : Nat → Nat → Nat → Nat → Nat → Nat
  | 0, _, _, _, _ => 0
  | fuel + 1, alo, ahi, blo, bhi =>
    if 0 < (findLongestMatch a b alo ahi blo bhi).bestsize then
      matchTotalGo a b fuel alo (findLongestMatch a b alo ahi blo bhi).besti
          blo (findLongestMatch a b alo ahi blo bhi).bestj +
        (findLongestMatch a b alo ahi blo bhi).bestsize +
        matchTotalGo a b fuel
          ((findLongestMatch a b alo ahi blo bhi).besti +
            (findLongestMatch a b alo ahi blo bhi).bestsize) ahi
          ((findLongestMatch a b alo ahi blo bhi).bestj +
            (findLongestMatch a b alo ahi blo bhi).bestsize) bhi
    else 0

/-- Total size of the matching blocks found by the recursive splitting of
`get_matching_blocks` (the queue-and-merge bookkeeping of the source
changes only the block list presentation, not the total matched size,
which is all `ratio` consumes). -/
def matchTotal (a b : Str) (alo ahi blo bhi : Nat) : Nat :=
  matchTotalGo a b ((ahi - alo) + (bhi - blo) + 1) alo ahi blo bhi

lemma matchTotalGo_congr (a b : Str) :
    ∀ (f1 : Nat) (f2 alo ahi blo bhi : Nat),
      (ahi - alo) + (bhi - blo) < f1 → (ahi - alo) + (bhi - blo) < f2 →
      matchTotalGo a b f1 alo ahi blo bhi = matchTotalGo a b f2 alo ahi blo bhi := by
  intro f1
  induction f1 with
  | zero => intro f2 alo ahi blo bhi h1 h2; omega
  | succ n ih =>
    intro f2 alo ahi blo bhi h1 h2
    cases f2 with
    | zero => omega
    | succ m =>
      rw [matchTotalGo, matchTotalGo]
      by_cases hpos : 0 < (findLongestMatch a b alo ahi blo bhi).bestsize
      · rw [if_pos hpos, if_pos hpos]
        have hb := flm_bounds a b alo ahi blo bhi hpos
        have e1 := ih m alo (findLongestMatch a b alo ahi blo bhi).besti
          blo (findLongestMatch a b alo ahi blo bhi).bestj (by omega) (by omega)
        have e2 := ih m
          ((findLongestMatch a b alo ahi blo bhi).besti +
            (findLongestMatch a b alo ahi blo bhi).bestsize) ahi
          ((findLongestMatch a b alo ahi blo bhi).bestj +
            (findLongestMatch a b alo ahi blo bhi).bestsize) bhi (by omega) (by omega)
        rw [e1, e2]
      · rw [if_neg hpos, if_neg hpos]

/-- `matchTotal` satisfies the intended splitting recurrence. -/
lemma matchTotal_eq (a b : Str) (alo ahi blo bhi : Nat) :
    matchTotal a b alo ahi blo bhi =
      if 0 < (findLongestMatch a b alo ahi blo bhi).bestsize then
        matchTotal a b alo (findLongestMatch a b alo ahi blo bhi).besti
            blo (findLongestMatch a b alo ahi blo bhi).bestj +
          (findLongestMatch a b alo ahi blo bhi).bestsize +
          matchTotal a b
            ((findLongestMatch a b alo ahi blo bhi).besti +
              (findLongestMatch a b alo ahi blo bhi).bestsize) ahi
            ((findLongestMatch a b alo ahi blo bhi).bestj +
              (findLongestMatch a b alo ahi blo bhi).bestsize) bhi
      else 0 := by
  rw [matchTotal, matchTotalGo]
  by_cases hpos : 0 < (findLongestMatch a b alo ahi blo bhi).bestsize
  · rw [if_pos hpos, if_pos hpos]
    have hb := flm_bounds a b alo ahi blo bhi hpos
    have e1 : matchTotalGo a b ((ahi - alo) + (bhi - blo)) alo
        (findLongestMatch a b alo ahi blo bhi).besti blo
        (findLongestMatch a b alo ahi blo bhi).bestj =
        matchTotal a b alo (findLongestMatch a b alo ahi blo bhi).besti
          blo (findLongestMatch a b alo ahi blo bhi).bestj := by
      rw [matchTotal]
      exact matchTotalGo_congr a b _ _ _ _ _ _ (by omega) (by omega)
    have e2 : matchTotalGo a b ((ahi - alo) + (bhi - blo))
        ((findLongestMatch a b alo ahi blo bhi).besti +
          (findLongestMatch a b alo ahi blo bhi).bestsize) ahi
        ((findLongestMatch a b alo ahi blo bhi).bestj +
          (findLongestMatch a b alo ahi blo bhi).bestsize) bhi =
        matchTotal a b
          ((findLongestMatch a b alo ahi blo bhi).besti +
            (findLongestMatch a b alo ahi blo bhi).bestsize) ahi
          ((findLongestMatch a b alo ahi blo bhi).bestj +
            (findLongestMatch a b alo ahi blo bhi).bestsize) bhi := by
      rw [matchTotal]
      exact matchTotalGo_congr a b _ _ _ _ _ _ (by omega) (by omega)
    rw [e1, e2]
  · rw [if_neg hpos, if_neg hpos]

/-- `SequenceMatcher.ratio()`: `2 * M / (len(a) + len(b))`, and `1.0`
when both sequences are empty (`_calculate_ratio`). -/
def smRatioVal (a b : Str) : ℚ :=
  if a.length + b.length = 0 then 1
  else (2 * (matchTotal a b 0 a.length 0 b.length) : ℚ) / (a.length + b.length)

/-! ### Data model of the disambiguators -/

/-- An entity record: `{"id": ..., "descriptor": ...}`. -/
structure Entity where
  id : Str
  descriptor : Str
  deriving DecidableEq, Repr

/-- A result dict produced by the improved/hybrid searches.  The Python
dicts carry different optional keys on different paths, modelled as
`Option` fields. -/
structure MatchResult where
  id : Str
  descriptor : Str
  similarity : ℚ
  match_type : Option Str
  fuzzy_score : Option ℚ
  semantic_score : Option ℚ
  deriving DecidableEq, Repr

instance : Inhabited MatchResult := ⟨⟨[], [], 0, none, none, none⟩⟩

/-- Insert into a descending-sorted list after all entries of equal or
larger key, which is exactly the placement of a stable descending sort. -/
def insertDescBy (key : α → ℚ) : List α → α → List α
  | [], x => [x]
  | y :: ys, x => if key y < key x then x :: y :: ys else y :: insertDescBy key ys x

/-- Python `list.sort(key=..., reverse=True)`: stable descending sort. -/
def sortDescBy (key : α → ℚ) (l : List α) : List α :=
  l.foldl (insertDescBy key) []

/-! ### ImprovedEntityDisambiguator (entity_disambiguation_improved.py) -/

/-- `preprocess_text`: lower-case and collapse whitespace. -/
def preprocess_text (text : Str) : Str :=
  List.intercalate (strL " ") (pySplit (pyLower text))

/-- One of the separator patterns of `re.split(r' - | at | of ', ...)`
starts here. -/
def sepHere (l : Str) : Bool :=
  (strL " - ").isPrefixOf l || (strL " at ").isPrefixOf l || (strL " of ").isPrefixOf l

/-- Characters before the first separator occurrence (the whole string
when no separator occurs), i.e. `re.split(r' - | at | of ', d)[0]`. -/
def headBeforeSep : Str → Str
  | [] => []
  | c :: cs => if sepHere (c :: cs) then [] else c :: headBeforeSep cs

/-- `extract_name`: part of the descriptor before the first separator,
stripped. -/
def extract_name (descriptor : Str) : Str := pyStrip (headBeforeSep descriptor)

/-- The name-parts dict built by `extract_name_parts`. -/
structure NameParts where
  full : Str
  first : Str
  last : Str
  middle : List Str
  parts : List Str
  initials : List Char
  deriving DecidableEq, Repr

/-- `extract_name_parts`: split the extracted name on whitespace;
`first = parts[0]` (or empty), `last = parts[-1]` when more than one
part (or empty), `middle = parts[1:-1]` when more than two parts,
`initials` = upper-cased first character of each part. -/
def extract_name_parts (descriptor : Str) : NameParts :=
  let full := extract_name descriptor
  let parts := pySplit full
  { full := full
    first := parts.headD []
    last := if 1 < parts.length then parts.getLastD [] else []
    middle := if 2 < parts.length then (parts.drop 1).dropLast else []
    parts := parts
    initials := parts.map (fun p => (p.headD 'A').toUpper) }

/-- `fuzzy_match_score`: `SequenceMatcher(None, s1.lower(), s2.lower()).ratio()`. -/
def fuzzy_match_score (s1 s2 : Str) : ℚ :=
  smRatioVal (pyLower s1) (pyLower s2)

/-- `detect_query_type`: 1 token is a partial name; 2 tokens that each
start upper-case or are fully lower-case make a full name; anything else
(including 0 tokens) is semantic. -/
def detect_query_type (query : Str) : Str :=
  let words := pySplit query
  if words.length = 1 then strL "partial_name"
  else if words.length = 2 ∧ words.all (fun w => (w.headD 'A').isUpper || pyIsLowerStr w)
    then strL "full_name"
  else strL "semantic"

/-- `check_name_match_with_initials(query_parts, entity_parts)`:
`(is_match, score, match_type)`. -/
def check_name_match_with_initials (qp ep : NameParts) : Bool × ℚ × Str :=
  if pyLower qp.full = pyLower ep.full then (true, 1, strL "exact_full_name")
  else if 2 ≤ qp.parts.length then
    if pyLower (qp.parts.headD []) = pyLower ep.first ∧
        pyLower (qp.parts.getLastD []) = pyLower ep.last then
      if qp.parts.length = 2 ∧ 2 < ep.parts.length then
        (true, 19/20, strL "name_without_middle")
      else if 2 < qp.parts.length then
        let qm := ((qp.parts.drop 1).dropLast).map pyLower
        let em := ep.middle.map pyLower
        if qm = em then (true, 49/50, strL "name_with_middle")
        else if qm.all (fun m => m.length = 2 && m.getLastD 'A' == '.') ∧
            qm.map (fun m => (m.headD 'A').toUpper) =
              em.map (fun m => (m.headD 'A').toUpper) then
          (true, 24/25, strL "name_with_middle_initial")
        else if em.all (fun m => m.length = 2 && m.getLastD 'A' == '.') ∧
            em.map (fun m => (m.headD 'A').toUpper) =
              qm.map (fun m => (m.headD 'A').toUpper) then
          (true, 24/25, strL "name_matches_middle_initial")
        else (false, 0, [])
      else (false, 0, [])
    else (false, 0, [])
  else (false, 0, [])

/-- The `for i, initial in enumerate(name_parts["initials"])` loop of the
single-letter case: score the FIRST matching initial by its position
(0.85 first, 0.85 last, 0.80 interior) and break; no match leaves the
score at 0.0 with an empty label. -/
def initial_scan (qU : Char) (total : Nat) : Nat → List Char → ℚ × Str
  | _, [] => (0, [])
  | i, c :: rest =>
    if qU = c then
      if i = 0 then (17/20, strL "first_initial")
      else if i = total - 1 then (17/20, strL "last_initial")
      else (4/5, strL "middle_initial")
    else initial_scan qU total (i + 1) rest

/-- Per-entity score of the partial-name branch; `first_sim` and
`last_sim` are the oracle cosine similarities with the first-name and
last-name embeddings. -/
def partial_entity_score (query : Str) (np : NameParts) (first_sim last_sim : ℚ) :
    ℚ × Str :=
  if query.length = 1 then
    initial_scan (query.headD 'A').toUpper np.initials.length 0 np.initials
  else if pyLower query = pyLower np.first then (19/20, strL "exact_first_name")
  else if pyLower query = pyLower np.last then (19/20, strL "exact_last_name")
  else if np.parts.any (fun p => pyLower query = pyLower p) then
    (9/10, strL "exact_name_part")
  else (max first_sim last_sim * (7/10), strL "semantic_name")

/-- Oracle for every embedding-model cosine similarity the improved
search reads (the embedder is an external collaborator; a table of its
per-entity similarities for the current query is the call input). -/
structure SemOracle where
  first_sim : Nat → ℚ
  last_sim : Nat → ℚ
  orig_orig : Nat → ℚ
  norm_norm : Nat → ℚ
  orig_names : Nat → ℚ

/-- Partial-name branch: score each entity, keep scores at or above the
threshold. -/
def partialMatches (query : Str) (entities : List Entity) (o : SemOracle)
    (threshold : ℚ) : List MatchResult :=
  entities.enum.filterMap (fun p =>
    let np := extract_name_parts p.2.descriptor
    let sc := partial_entity_score query np (o.first_sim p.1) (o.last_sim p.1)
    if threshold ≤ sc.1 then
      some { id := p.2.id, descriptor := p.2.descriptor, similarity := sc.1,
             match_type := some sc.2, fuzzy_score := none, semantic_score := none }
    else none)

/-- Exact pass of the full-name/semantic branch: case-insensitive
descriptor equality scores 1.0, else the name-matching sub-algorithm. -/
def exactPass (query : Str) (entities : List Entity) : List MatchResult :=
  entities.filterMap (fun e =>
    if pyLower query = pyLower e.descriptor then
      some { id := e.id, descriptor := e.descriptor, similarity := 1,
             match_type := some (strL "exact_descriptor"),
             fuzzy_score := none, semantic_score := none }
    else
      let r := check_name_match_with_initials (extract_name_parts query)
        (extract_name_parts e.descriptor)
      if r.1 then
        some { id := e.id, descriptor := e.descriptor, similarity := r.2.1,
               match_type := some r.2.2, fuzzy_score := none, semantic_score := none }
      else none)

/-- The result dict built for a fuzzy-pass candidate: effective score
`ratio * 0.95`, label `fuzzy`, raw ratio kept in `fuzzy_score`. -/
def fuzzyEntry (query : Str) (e : Entity) : MatchResult :=
  { id := e.id, descriptor := e.descriptor,
    similarity := fuzzy_match_score query (extract_name_parts e.descriptor).full * (19/20),
    match_type := some (strL "fuzzy"),
    fuzzy_score := some (fuzzy_match_score query (extract_name_parts e.descriptor).full),
    semantic_score := none }

/-- Fuzzy pass: keep entities whose fuzzy ratio against the entity full
name is at least 0.85, at score `ratio * 0.95`. -/
def fuzzyPass (query : Str) (entities : List Entity) : List MatchResult :=
  entities.filterMap (fun e =>
    if 17/20 ≤ fuzzy_match_score query (extract_name_parts e.descriptor).full then
      some (fuzzyEntry query e)
    else none)

/-- The `for fm in fuzzy_matches: ... break` lookup of an entity's fuzzy
similarity (0 when absent). -/
def firstFuzzySim (fz : List MatchResult) (eid : Str) : ℚ :=
  match fz.find? (fun fm => fm.id = eid) with
  | some fm => fm.similarity
  | none => 0

/-- Combined scores of the full-name/semantic branch: fuzzy similarity
when present (it is always positive), else the maximal semantic
similarity; keep final scores at or above the threshold. -/
def combinedScores (entities : List Entity) (o : SemOracle)
    (fz : List MatchResult) (threshold : ℚ) : List MatchResult :=
  entities.enum.filterMap (fun p =>
    let semantic := max (o.orig_orig p.1) (max (o.norm_norm p.1) (o.orig_names p.1))
    let fuzzy := firstFuzzySim fz p.2.id
    let final := if 0 < fuzzy then fuzzy else semantic
    if threshold ≤ final then
      some { id := p.2.id, descriptor := p.2.descriptor, similarity := final,
             match_type := none, fuzzy_score := none, semantic_score := some semantic }
    else none)

/-- `ImprovedEntityDisambiguator.search` (timing dropped): returns the
result list and the overall match type. -/
def improved_search (query : Str) (entities : List Entity) (o : SemOracle)
    (threshold : ℚ) : List MatchResult × Str :=
  if detect_query_type query = strL "partial_name" then
    let ms := sortDescBy (fun r => r.similarity) (partialMatches query entities o threshold)
    (ms, if 1 < ms.length then strL "partial" else strL "exact")
  else
    let ex := exactPass query entities
    if ex.isEmpty then
      let fz := fuzzyPass query entities
      let cs := sortDescBy (fun r => r.similarity) (combinedScores entities o fz threshold)
      if cs.length = 1 ∧ 17/20 ≤ (cs.headD default).similarity then (cs, strL "exact")
      else (cs, strL "ambiguous")
    else (sortDescBy (fun r => r.similarity) ex, strL "exact")

/-- Store-passing form of `ImprovedEntityDisambiguator.search`: the
Python body only reads `entities` and builds fresh result dicts
(`{**entity, ...}`), so the store component is returned as received. -/
def improved_search_st (query : Str) (entities : List Entity) (o : SemOracle)
    (threshold : ℚ) : List Entity × List MatchResult × Str :=
  (entities, improved_search query entities o threshold)

/-! ### HybridEntityDisambiguator (entity_disambiguation_hybrid.py) -/

/-- Oracle for the four cosine-similarity arrays of the hybrid search. -/
structure HybridOracle where
  orig_orig : Nat → ℚ
  norm_norm : Nat → ℚ
  orig_names : Nat → ℚ
  norm_names : Nat → ℚ

/-- Exact pass of the hybrid search: descriptor equality (1.0), else
extracted-name equality (0.95). -/
def hybridExact (query : Str) (entities : List Entity) : List MatchResult :=
  entities.filterMap (fun e =>
    if pyLower query = pyLower e.descriptor then
      some { id := e.id, descriptor := e.descriptor, similarity := 1,
             match_type := some (strL "exact"), fuzzy_score := none,
             semantic_score := none }
    else if pyLower query = pyLower (extract_name e.descriptor) then
      some { id := e.id, descriptor := e.descriptor, similarity := 19/20,
             match_type := some (strL "exact_name"), fuzzy_score := none,
             semantic_score := none }
    else none)

/-- Fuzzy pass of the hybrid search: undamped ratio against the
extracted name, threshold 0.85. -/
def hybridFuzzy (query : Str) (entities : List Entity) : List MatchResult :=
  entities.filterMap (fun e =>
    let fs := fuzzy_match_score query (extract_name e.descriptor)
    if 17/20 ≤ fs then
      some { id := e.id, descriptor := e.descriptor, similarity := fs,
             match_type := some (strL "fuzzy"), fuzzy_score := some fs,
             semantic_score := none }
    else none)

/-- The fuzzy-score lookup of the hybrid combine step (reads the
`fuzzy_score` key). -/
def firstFuzzyScoreOf (fz : List MatchResult) (eid : Str) : ℚ :=
  match fz.find? (fun fm => fm.id = eid) with
  | some fm => fm.fuzzy_score.getD 0
  | none => 0

/-- Combined scores of the hybrid search: `0.7 * fuzzy + 0.3 * semantic`
for fuzzy candidates, else the maximal semantic similarity; keep final
scores at or above the threshold. -/
def hybridCombined (entities : List Entity) (o : HybridOracle)
    (fz : List MatchResult) (threshold : ℚ) : List MatchResult :=
  entities.enum.filterMap (fun p =>
    let semantic := max (o.orig_orig p.1)
      (max (o.norm_norm p.1) (max (o.orig_names p.1) (o.norm_names p.1)))
    let fuzzy := firstFuzzyScoreOf fz p.2.id
    let final := if 0 < fuzzy then (7/10) * fuzzy + (3/10) * semantic else semantic
    if threshold ≤ final then
      some { id := p.2.id, descriptor := p.2.descriptor, similarity := final,
             match_type := none, fuzzy_score := some fuzzy,
             semantic_score := some semantic }
    else none)

/-- `HybridEntityDisambiguator.search` (timing dropped).  Its tail
applies the margin collapse rule: a single result at or above 0.85, or a
top result at or above 0.85 leading the runner-up by more than 0.1,
collapses to one `exact` result. -/
def hybrid_search (query : Str) (entities : List Entity) (o : HybridOracle)
    (threshold : ℚ) : List MatchResult × Str :=
  let ex := hybridExact query entities
  if ex.isEmpty then
    let fz := hybridFuzzy query entities
    let cs := sortDescBy (fun r => r.similarity) (hybridCombined entities o fz threshold)
    if cs.length = 1 ∧ 17/20 ≤ (cs.headD default).similarity then (cs, strL "exact")
    else if 0 < cs.length ∧ 17/20 ≤ (cs.headD default).similarity ∧
        (cs.length = 1 ∨
          1/10 < (cs.headD default).similarity - ((cs.drop 1).headD default).similarity)
      then ([cs.headD default], strL "exact")
    else (cs, strL "ambiguous")
  else (ex, strL "exact")

/-! ### EntityDisambiguator (entity_disambiguation.py)

The base search mutates the caller's entity dicts in its substring
fallback (`match["similarity"] = float(similarities[idx])` writes into
the very objects of `entities`), so it is embedded in store-passing
style: the first component of the result is the entity store after the
call.  Entity dicts may or may not carry the `similarity`/`rank` keys,
modelled as `Option` fields. -/

structure PyEntity where
  id : Str
  descriptor : Str
  similarity : Option ℚ
  rank : Option Nat
  deriving DecidableEq, Repr

instance : Inhabited PyEntity := ⟨⟨[], [], none, none⟩⟩

/-- Index of the first equal entity (`entities.index(match)`), 0 as an
unreachable fallback (Python would raise). -/
def firstIndexOf (e : PyEntity) (entities : List PyEntity) : Nat :=
  (entities.findIdx (fun x => x = e))

/-- The entities kept above the threshold by the base search, with
their `similarity` and `rank` keys filled in. -/
def baseKept (entities : List PyEntity) (sims : List ℚ) (threshold : ℚ) :
    List PyEntity :=
  (entities.zip sims).enum.filterMap (fun p =>
    if threshold ≤ p.2.2 then
      some { p.2.1 with similarity := some p.2.2, rank := some (p.1 + 1) }
    else none)

/-- The entity store after the substring fallback of the base search:
every substring-matching record receives a `similarity` key. -/
def baseFallbackStore (query : Str) (entities : List PyEntity) (sims : List ℚ) :
    List PyEntity :=
  entities.map (fun e =>
    if strContains (pyLower query) (pyLower e.descriptor)
    then { e with similarity := some (sims.getD (firstIndexOf e entities) 0) }
    else e)

/-- `EntityDisambiguator.search` (timing dropped): returns the entity
store after the call, the result list and the match type.  In the
substring fallback, `entities.index(match)` is modelled against the
pre-call store (exact for duplicate-free entity lists). -/
def base_search (query : Str) (entities : List PyEntity) (sims : List ℚ)
    (threshold : ℚ) : List PyEntity × List PyEntity × Str :=
  let ms := sortDescBy (fun e => e.similarity.getD 0) (baseKept entities sims threshold)
  if ms.length = 1 ∧ (17/20 : ℚ) ≤ (ms.headD default).similarity.getD 0 then
    (entities, ms, strL "exact")
  else if 0 < ms.length ∧ (17/20 : ℚ) ≤ (ms.headD default).similarity.getD 0 ∧
      (ms.length = 1 ∨
        (1/10 : ℚ) < (ms.headD default).similarity.getD 0 -
          ((ms.drop 1).headD default).similarity.getD 0) then
    (entities, [ms.headD default], strL "exact")
  else if ms.isEmpty then
    let store := baseFallbackStore query entities sims
    let sm := sortDescBy (fun e => e.similarity.getD 0)
      (store.filter (fun e => strContains (pyLower query) (pyLower e.descriptor)))
    (store, sm, strL "ambiguous")
  else (entities, ms, strL "ambiguous")

/-! ### TwoStageEntityDisambiguator (reranking_integration.py) -/

/-- `np.var`: population variance (0 on an empty list, never hit by the
caller). -/
def npVar (xs : List ℚ) : ℚ :=
  if xs.length = 0 then 0
  else
    ((xs.map (fun x => (x - xs.sum / xs.length) * (x - xs.sum / xs.length))).sum) /
      xs.length

/-- `TwoStageEntityDisambiguator.should_rerank`: no reranker or at most
3 candidates skips; a top score above 0.95 skips; at least 5 candidates
with top-5 variance below 0.01 reranks; otherwise rerank exactly for an
`ambiguous` stage-1 match type. -/
def should_rerank (hasReranker : Bool) (results : List MatchResult)
    (query_type : Str) : Bool :=
  if hasReranker = false ∨ results.length ≤ 3 then false
  else if results ≠ [] ∧ 19/20 < (results.headD default).similarity then false
  else if 5 ≤ results.length ∧
      npVar ((results.take 5).map (fun r => r.similarity)) < 1/100 then true
  else decide (query_type = strL "ambiguous")

/-- The final-score construction of the reranking stage: for each
`(idx, rerank_score)` pair from the reranker, blend
`0.6 * retrieval_score + 0.4 * rerank_score` into the result at `idx`. -/
def blend_final (retrieval : List MatchResult) (reranked : List (Nat × ℚ)) :
    List MatchResult :=
  reranked.map (fun p =>
    let o := retrieval.getD p.1 default
    { o with similarity := (3/5) * o.similarity + (2/5) * p.2 })

/-- The combined-then-sorted result list of the improved full-name and
semantic branch. -/
def improvedCombinedSorted (query : Str) (entities : List Entity) (o : SemOracle)
    (threshold : ℚ) : List MatchResult :=
  sortDescBy (fun r => r.similarity)
    (combinedScores entities o (fuzzyPass query entities) threshold)

/-- The combined-then-sorted result list of the hybrid search. -/
def hybridCombinedSorted (query : Str) (entities : List Entity) (o : HybridOracle)
    (threshold : ℚ) : List MatchResult :=
  sortDescBy (fun r => r.similarity)
    (hybridCombined entities o (hybridFuzzy query entities) threshold)

/-- A semantic oracle whose every similarity is zero. -/
def zeroSemOracle : SemOracle :=
  ⟨fun _ => 0, fun _ => 0, fun _ => 0, fun _ => 0, fun _ => 0⟩

/-! ### Helper lemmas about the stable descending sort -/

lemma mem_insertDescBy (key : α → ℚ) (x y : α) :
    ∀ l, y ∈ insertDescBy key l x ↔ y ∈ l ∨ y = x := by
  intro l
  induction l with
  | nil => simp [insertDescBy]
  | cons z zs ih =>
    by_cases h : key z < key x
    · simp [insertDescBy, h]; tauto
    · simp [insertDescBy, h, ih]; tauto

lemma mem_sortDescBy_aux (key : α → ℚ) (y : α) :
    ∀ (l : List α) (acc : List α),
      (y ∈ l.foldl (insertDescBy key) acc ↔ y ∈ acc ∨ y ∈ l) := by
  intro l
  induction l with
  | nil => intro acc; simp
  | cons z zs ih =>
    intro acc
    simp only [List.foldl_cons, ih, mem_insertDescBy]
    simp; tauto

lemma mem_sortDescBy (key : α → ℚ) (y : α) (l : List α) :
    y ∈ sortDescBy key l ↔ y ∈ l := by
  simpa [sortDescBy] using mem_sortDescBy_aux key y l []

lemma length_insertDescBy (key : α → ℚ) (x : α) :
    ∀ l, (insertDescBy key l x).length = l.length + 1 := by
  intro l
  induction l with
  | nil => simp [insertDescBy]
  | cons z zs ih =>
    by_cases h : key z < key x <;> simp [insertDescBy, h, ih]

lemma length_sortDescBy (key : α → ℚ) (l : List α) :
    (sortDescBy key l).length = l.length := by
  suffices h : ∀ (l acc : List α),
      (l.foldl (insertDescBy key) acc).length = acc.length + l.length by
    simpa [sortDescBy] using h l []
  intro l
  induction l with
  | nil => intro acc; simp
  | cons z zs ih =>
    intro acc
    simp only [List.foldl_cons, ih, length_insertDescBy, List.length_cons]
    omega

lemma sortDescBy_nil_iff (key : α → ℚ) (l : List α) :
    sortDescBy key l = [] ↔ l = [] := by
  constructor
  · intro h
    have := length_sortDescBy key l
    rw [h] at this
    exact List.length_eq_zero.mp this.symm
  · rintro rfl; rfl

lemma pairwise_insertDescBy (key : α → ℚ) (x : α) :
    ∀ l, l.Pairwise (fun p q => key q ≤ key p) →
      (insertDescBy key l x).Pairwise (fun p q => key q ≤ key p) := by
  intro l
  induction l with
  | nil => intro _; simp [insertDescBy]
  | cons z zs ih =>
    intro hl
    rcases List.pairwise_cons.mp hl with ⟨hz, hzs⟩
    by_cases h : key z < key x
    · simp only [insertDescBy, if_pos h]
      refine List.pairwise_cons.mpr ⟨?_, hl⟩
      intro q hq
      rcases List.mem_cons.mp hq with rfl | hq
      · exact le_of_lt h
      · exact le_trans (hz q hq) (le_of_lt h)
    · simp only [insertDescBy, if_neg h]
      refine List.pairwise_cons.mpr ⟨?_, ih hzs⟩
      intro q hq
      rcases (mem_insertDescBy key x q zs).mp hq with hq | rfl
      · exact hz q hq
      · exact le_of_not_lt h

lemma pairwise_sortDescBy (key : α → ℚ) (l : List α) :
    (sortDescBy key l).Pairwise (fun p q => key q ≤ key p) := by
  suffices h : ∀ (l acc : List α),
      acc.Pairwise (fun p q => key q ≤ key p) →
      (l.foldl (insertDescBy key) acc).Pairwise (fun p q => key q ≤ key p) by
    exact h l [] (by simp)
  intro l
  induction l with
  | nil => intro acc hacc; simpa using hacc
  | cons z zs ih =>
    intro acc hacc
    exact ih (insertDescBy key acc z) (pairwise_insertDescBy key z acc hacc)

/-! ### Query-type characterization -/

lemma detect_eq_partial_iff (q : Str) :
    detect_query_type q = strL "partial_name" ↔ (pySplit q).length = 1 := by
  by_cases h1 : (pySplit q).length = 1
  · simp [detect_query_type, h1]
  · simp only [detect_query_type, if_neg h1]
    by_cases h2 : (pySplit q).length = 2 ∧
        (pySplit q).all (fun w => (w.headD 'A').isUpper || pyIsLowerStr w)
    · rw [if_pos h2]
      constructor
      · intro h; exact absurd h (by decide)
      · intro h; exact absurd h h1
    · rw [if_neg h2]
      constructor
      · intro h; exact absurd h (by decide)
      · intro h; exact absurd h h1

/-! ### C4: query-type classification -/

/-- C4 counterexample: the empty query has 0 whitespace tokens, yet the
code classifies it `semantic`, not `partial_name` (the single-token
branch), contradicting the claim that 0-token queries are routed to the
single-token branch. -/
theorem c4_counterexample :
    pySplit (strL "") = [] ∧
    detect_query_type (strL "") = strL "semantic" ∧
    detect_query_type (strL "") ≠ strL "partial_name" := by decide

/-- C4 amended: the classification tokenizes on whitespace; exactly one
token gives the single-token class (`partial_name`), exactly two tokens
each first-letter-upper-case or fully lower-case give `full_name`, and
everything else — including a 0-token (empty or all-whitespace) query —
gives `semantic`. -/
theorem c4_amended (q : Str) :
    (detect_query_type q = strL "partial_name" ↔ (pySplit q).length = 1) ∧
    (detect_query_type q = strL "full_name" ↔
      ((pySplit q).length = 2 ∧
        ∀ w ∈ pySplit q, (w.headD 'A').isUpper = true ∨ pyIsLowerStr w = true)) ∧
    ((pySplit q).length = 0 → detect_query_type q = strL "semantic") ∧
    (3 ≤ (pySplit q).length → detect_query_type q = strL "semantic") := by
  refine ⟨detect_eq_partial_iff q, ?_, ?_, ?_⟩
  · simp only [detect_query_type]
    split_ifs with hc1 hc2
    · constructor
      · intro h; exact absurd h (by decide)
      · rintro ⟨hl, -⟩; omega
    · constructor
      · intro _
        refine ⟨hc2.1, ?_⟩
        intro w hw
        have := List.all_eq_true.mp hc2.2 w hw
        rcases (Bool.or_eq_true _ _).mp this with h | h
        · exact Or.inl h
        · exact Or.inr h
      · intro _; rfl
    · constructor
      · intro h; exact absurd h (by decide)
      · rintro ⟨hl, hall⟩
        exact absurd ⟨hl, List.all_eq_true.mpr (fun w hw => by
          rcases hall w hw with h | h
          · exact (Bool.or_eq_true _ _).mpr (Or.inl h)
          · exact (Bool.or_eq_true _ _).mpr (Or.inr h))⟩ hc2
  · intro h0
    simp only [detect_query_type]
    split_ifs with hc1 hc2
    · omega
    · exact absurd hc2.1 (by omega)
    · rfl
  · intro h3
    simp only [detect_query_type]
    split_ifs with hc1 hc2
    · omega
    · exact absurd hc2.1 (by omega)
    · rfl

/-! ### C3: searching an empty entity index -/

/-- C3 counterexample: with an empty entity index, a single-token query
returns the empty result list with match type `exact` (the partial-name
branch labels 0 or 1 results `exact`), not `ambiguous` as claimed. -/
theorem c3_counterexample :
    improved_search (strL "John") [] zeroSemOracle (1/2) = ([], strL "exact") ∧
    strL "exact" ≠ strL "ambiguous" := by decide

/-- C3 amended: searching an empty entity index returns the empty result
list for every query and threshold and raises nothing, with match type
`ambiguous` for queries that do not tokenize to exactly one token, and
`exact` for single-token queries. -/
theorem c3_amended (q : Str) (o : SemOracle) (t : ℚ) :
    improved_search q [] o t =
      ([], if (pySplit q).length = 1 then strL "exact" else strL "ambiguous") := by
  by_cases h1 : (pySplit q).length = 1
  · have hd : detect_query_type q = strL "partial_name" := (detect_eq_partial_iff q).mpr h1
    simp [improved_search, hd, partialMatches, sortDescBy, h1]
  · have hd : ¬ detect_query_type q = strL "partial_name" := by
      rw [detect_eq_partial_iff]; exact h1
    simp [improved_search, hd, exactPass, fuzzyPass, combinedScores, sortDescBy, h1]

/-! ### C5: one-letter queries against the initials -/

/-- C5 counterexample: for the entity `Mary Jane Jones - Writer` the
upper-cased query letter J equals the last initial, yet the search
scores it 0.80 with label `middle_initial` (the initials loop breaks at
the first matching initial, here the interior one), not the claimed
0.85. -/
theorem c5_counterexample :
    (extract_name_parts (strL "Mary Jane Jones - Writer")).initials.getLastD 'A' = 'J' ∧
    improved_search (strL "j") [⟨strL "1", strL "Mary Jane Jones - Writer"⟩]
        zeroSemOracle (1/2) =
      ([⟨strL "1", strL "Mary Jane Jones - Writer", 4/5,
          some (strL "middle_initial"), none, none⟩], strL "exact") ∧
    (4/5 : ℚ) ≠ 17/20 := by decide

lemma initial_scan_spec (qU : Char) (total : Nat) :
    ∀ (inits : List Char) (i : Nat),
      (qU ∉ inits → initial_scan qU total i inits = (0, [])) ∧
      (qU ∈ inits → initial_scan qU total i inits =
        (if i + (inits.takeWhile (fun c => c ≠ qU)).length = 0
         then (17/20, strL "first_initial")
         else if i + (inits.takeWhile (fun c => c ≠ qU)).length = total - 1
         then (17/20, strL "last_initial")
         else (4/5, strL "middle_initial"))) := by
  intro inits
  induction inits with
  | nil => intro i; constructor
           · intro _; rfl
           · intro h; simp at h
  | cons c rest ih =>
    intro i
    constructor
    · intro hnm
      have hne : qU ≠ c := fun h => hnm (by simp [h])
      have hnr : qU ∉ rest := fun h => hnm (List.mem_cons_of_mem c h)
      simp only [initial_scan, if_neg hne]
      exact (ih (i + 1)).1 hnr
    · intro hm
      by_cases he : qU = c
      · have htw : ((c :: rest).takeWhile (fun x => x ≠ qU)).length = 0 := by
          rw [List.takeWhile_cons]
          simp [he]
        rw [htw]
        simp only [initial_scan, if_pos he, Nat.add_zero]
      · have hr : qU ∈ rest := by
          rcases List.mem_cons.mp hm with h | h
          · exact absurd h he
          · exact h
        have hcq : c ≠ qU := fun h2 => he h2.symm
        have htw : ((c :: rest).takeWhile (fun x => x ≠ qU)).length =
            (rest.takeWhile (fun x => x ≠ qU)).length + 1 := by
          rw [List.takeWhile_cons]
          simp [hcq]
        rw [htw]
        simp only [initial_scan, if_neg he]
        rw [(ih (i + 1)).2 hr]
        have harith : i + 1 + (rest.takeWhile (fun x => x ≠ qU)).length =
            i + ((rest.takeWhile (fun x => x ≠ qU)).length + 1) := by omega
        rw [harith]

/-- C5 amended: in the single-token branch, a one-character query is
scored by the position of the FIRST matching initial only (the loop
breaks there): 0.85 when that first match is the first initial, 0.85
when it is the last initial, 0.80 when it is an interior initial, and
0.0 (with an empty label) when no initial matches.  In particular a
letter that occurs both as an interior initial and as the last initial
scores 0.80, not 0.85. -/
theorem c5_amended (query : Str) (np : NameParts) (fs ls : ℚ)
    (h1 : query.length = 1) :
    ((query.headD 'A').toUpper ∉ np.initials →
      partial_entity_score query np fs ls = (0, [])) ∧
    ((query.headD 'A').toUpper ∈ np.initials →
      partial_entity_score query np fs ls =
        (if (np.initials.takeWhile (fun c => c ≠ (query.headD 'A').toUpper)).length = 0
         then (17/20, strL "first_initial")
         else if (np.initials.takeWhile (fun c => c ≠ (query.headD 'A').toUpper)).length
             = np.initials.length - 1
         then (17/20, strL "last_initial")
         else (4/5, strL "middle_initial"))) := by
  have hps : partial_entity_score query np fs ls =
      initial_scan (query.headD 'A').toUpper np.initials.length 0 np.initials := by
    simp [partial_entity_score, h1]
  have h := initial_scan_spec (query.headD 'A').toUpper np.initials.length np.initials 0
  rw [hps]
  constructor
  · exact h.1
  · intro hm
    have := h.2 hm
    simpa using this

/-- C5 witness: a one-letter query whose first matching initial is the
last initial of `Alice Bob` scores 0.85 with label `last_initial`. -/
theorem c5_witness :
    partial_entity_score (strL "b") (extract_name_parts (strL "Alice Bob - X")) 0 0
      = (17/20, strL "last_initial") := by
  have h := (c5_amended (strL "b") (extract_name_parts (strL "Alice Bob - X")) 0 0
    (by decide)).2 (by decide)
  rw [h]
  decide

/-! ### Branch-unfolding lemmas of the improved search -/

lemma improved_search_exact (query : Str) (entities : List Entity) (o : SemOracle)
    (t : ℚ) (hq : detect_query_type query ≠ strL "partial_name")
    (hex : exactPass query entities ≠ []) :
    improved_search query entities o t =
      (sortDescBy (fun r => r.similarity) (exactPass query entities), strL "exact") := by
  have hie : (exactPass query entities).isEmpty = false := by
    cases hxp : exactPass query entities with
    | nil => exact absurd hxp hex
    | cons x xs => rfl
  simp only [improved_search, if_neg hq, hie]
  rfl

lemma improved_search_noexact (query : Str) (entities : List Entity) (o : SemOracle)
    (t : ℚ) (hq : detect_query_type query ≠ strL "partial_name")
    (hex : exactPass query entities = []) :
    improved_search query entities o t =
      (improvedCombinedSorted query entities o t,
        if (improvedCombinedSorted query entities o t).length = 1 ∧
            17/20 ≤ ((improvedCombinedSorted query entities o t).headD default).similarity
        then strL "exact" else strL "ambiguous") := by
  simp only [improved_search, if_neg hq, hex, List.isEmpty_nil, if_pos]
  simp only [improvedCombinedSorted, hex]
  split_ifs with h
  · rfl
  · rfl

/-! ### C1: case-insensitive descriptor equality -/

/-- C1 counterexample: the query `madonna` case-insensitively equals the
descriptor `Madonna`, but, being a single token, it is routed to the
partial-name branch and returned with similarity 0.95 (first-name rule),
not 1.0. -/
theorem c1_counterexample :
    pyLower (strL "madonna") = pyLower (strL "Madonna") ∧
    improved_search (strL "madonna") [⟨strL "1", strL "Madonna"⟩] zeroSemOracle (1/2) =
      ([⟨strL "1", strL "Madonna", 19/20, some (strL "exact_first_name"), none, none⟩],
        strL "exact") ∧
    (19/20 : ℚ) ≠ 1 := by decide

/-- C1 amended: whenever the query does not tokenize to exactly one
whitespace token (single-token queries go to the partial-name branch
instead), a query that case-insensitively equals the descriptor of an
entity in the list makes the search return, for every threshold, a
result for that entity with similarity 1.0 and label
`exact_descriptor`, under overall match type `exact`. -/
theorem c1_amended (query : Str) (entities : List Entity) (o : SemOracle) (t : ℚ)
    (E : Entity) (hE : E ∈ entities)
    (heq : pyLower query = pyLower E.descriptor)
    (htok : (pySplit query).length ≠ 1) :
    (improved_search query entities o t).2 = strL "exact" ∧
    ∃ r ∈ (improved_search query entities o t).1,
      r.id = E.id ∧ r.descriptor = E.descriptor ∧ r.similarity = 1 ∧
      r.match_type = some (strL "exact_descriptor") := by
  have hq : detect_query_type query ≠ strL "partial_name" :=
    fun h => htok ((detect_eq_partial_iff query).mp h)
  have hmem : MatchResult.mk E.id E.descriptor 1 (some (strL "exact_descriptor"))
      none none ∈ exactPass query entities := by
    refine List.mem_filterMap.mpr ⟨E, hE, ?_⟩
    rw [if_pos heq]
  have hex : exactPass query entities ≠ [] := by
    intro h
    rw [h] at hmem
    exact absurd hmem (List.not_mem_nil _)
  rw [improved_search_exact query entities o t hq hex]
  refine ⟨rfl, ?_⟩
  exact ⟨_, (mem_sortDescBy _ _ _).mpr hmem, rfl, rfl, rfl, rfl⟩

/-- C1 witness at a concrete multi-token query equal to a descriptor. -/
theorem c1_witness :
    (improved_search (strL "john michael smith - engineer")
        [⟨strL "1", strL "John Michael Smith - Engineer"⟩] zeroSemOracle (3/10)).2
      = strL "exact" ∧
    ∃ r ∈ (improved_search (strL "john michael smith - engineer")
        [⟨strL "1", strL "John Michael Smith - Engineer"⟩] zeroSemOracle (3/10)).1,
      r.id = strL "1" ∧ r.descriptor = strL "John Michael Smith - Engineer" ∧
      r.similarity = 1 ∧ r.match_type = some (strL "exact_descriptor") :=
  c1_amended (strL "john michael smith - engineer")
    [⟨strL "1", strL "John Michael Smith - Engineer"⟩] zeroSemOracle (3/10)
    ⟨strL "1", strL "John Michael Smith - Engineer"⟩
    (by decide) (by decide) (by decide)

/-! ### C10: the exact pass ignores the threshold -/

/-- C10: for full-name/semantic queries with a non-empty exact pass, the
result is exactly the sorted exact-pass list with match type `exact`,
for every threshold (the right-hand side does not mention the
threshold); membership coincides with the exact pass and scores are
sorted descending. -/
theorem c10_theorem (query : Str) (entities : List Entity) (o : SemOracle) (t : ℚ)
    (hq : detect_query_type query ≠ strL "partial_name")
    (hex : exactPass query entities ≠ []) :
    improved_search query entities o t =
      (sortDescBy (fun r => r.similarity) (exactPass query entities), strL "exact") ∧
    (∀ r, r ∈ (improved_search query entities o t).1 ↔ r ∈ exactPass query entities) ∧
    ((improved_search query entities o t).1).Pairwise
      (fun x y => y.similarity ≤ x.similarity) := by
  have h := improved_search_exact query entities o t hq hex
  refine ⟨h, ?_, ?_⟩
  · intro r
    rw [h]
    exact mem_sortDescBy _ r _
  · rw [h]
    exact pairwise_sortDescBy _ _

/-- C10 witness: with threshold 0.99, the entity `John Michael Smith`
matched by `John Smith` via the no-middle-name rule is still returned at
similarity 0.95, strictly below the threshold. -/
theorem c10_witness :
    improved_search (strL "John Smith") [⟨strL "1", strL "John Michael Smith - Engineer"⟩]
        zeroSemOracle (99/100) =
      ([⟨strL "1", strL "John Michael Smith - Engineer", 19/20,
          some (strL "name_without_middle"), none, none⟩], strL "exact") ∧
    (19/20 : ℚ) < 99/100 := by
  have h := (c10_theorem (strL "John Smith")
    [⟨strL "1", strL "John Michael Smith - Engineer"⟩] zeroSemOracle (99/100)
    (by decide) (by decide)).1
  exact ⟨by rw [h]; decide, by decide⟩

/-! ### C2: the collapse rule of the full-name/semantic branch -/

/-- Oracle for the C2 scenario: semantic similarities 0.9 and 0.7. -/
def c2oracle : SemOracle :=
  ⟨fun _ => 0, fun _ => 0, fun i => if i = 0 then 9/10 else 7/10, fun _ => 0, fun _ => 0⟩

/-- C2 counterexample: a full-name query with two surviving results,
top score 0.9 at least 0.85, margin 0.2 over the runner-up larger than
0.10 — the claimed collapse rule would return the single top result as
`exact`, but the improved search returns both results as `ambiguous`. -/
theorem c2_counterexample :
    improved_search (strL "Zzz Qqq")
        [⟨strL "1", strL "Aaa Bbb - X"⟩, ⟨strL "2", strL "Ccc Ddd - Y"⟩] c2oracle (1/2) =
      ([⟨strL "1", strL "Aaa Bbb - X", 9/10, none, none, some (9/10)⟩,
        ⟨strL "2", strL "Ccc Ddd - Y", 7/10, none, none, some (7/10)⟩],
        strL "ambiguous") ∧
    (17/20 : ℚ) ≤ 9/10 ∧ (1/10 : ℚ) < 9/10 - 7/10 ∧
    strL "ambiguous" ≠ strL "exact" := by decide

/-- C2 amended: after sorting, the improved full-name/semantic branch
collapses to a single `exact` result only when exactly one result
remains with score at least 0.85; whenever two or more results survive
it returns them all as `ambiguous`, with no margin rule.  The claimed
margin rule (top at least 0.85 leading the runner-up by more than 0.10
collapses to the single top result) is applied by the hybrid variant,
not by the improved one. -/
theorem c2_amended (query : Str) (entities : List Entity) (o : SemOracle)
    (oh : HybridOracle) (t : ℚ)
    (hq : detect_query_type query ≠ strL "partial_name")
    (hex : exactPass query entities = [])
    (hexh : hybridExact query entities = []) :
    (2 ≤ (improvedCombinedSorted query entities o t).length →
      improved_search query entities o t =
        (improvedCombinedSorted query entities o t, strL "ambiguous")) ∧
    ((improvedCombinedSorted query entities o t).length = 1 →
      17/20 ≤ ((improvedCombinedSorted query entities o t).headD default).similarity →
      improved_search query entities o t =
        (improvedCombinedSorted query entities o t, strL "exact")) ∧
    (2 ≤ (hybridCombinedSorted query entities oh t).length →
      17/20 ≤ ((hybridCombinedSorted query entities oh t).headD default).similarity →
      1/10 < ((hybridCombinedSorted query entities oh t).headD default).similarity -
        (((hybridCombinedSorted query entities oh t).drop 1).headD default).similarity →
      hybrid_search query entities oh t =
        ([(hybridCombinedSorted query entities oh t).headD default], strL "exact")) := by
  refine ⟨?_, ?_, ?_⟩
  · intro h2
    rw [improved_search_noexact query entities o t hq hex]
    rw [if_neg]
    rintro ⟨h1, -⟩
    omega
  · intro h1 htop
    rw [improved_search_noexact query entities o t hq hex]
    rw [if_pos ⟨h1, htop⟩]
  · intro h2 htop hmargin
    have hie : (hybridExact query entities).isEmpty = true := by
      rw [hexh]; rfl
    simp only [hybrid_search, hie, if_pos]
    simp only [hybridCombinedSorted] at h2 htop hmargin ⊢
    rw [if_neg (by rintro ⟨h1, -⟩; omega)]
    rw [if_pos ⟨by omega, htop, Or.inr hmargin⟩]

/-- C2 witness: the improved branch at the concrete two-result scenario,
and the hybrid margin collapse at the same scenario. -/
theorem c2_witness :
    improved_search (strL "Zzz Qqq")
        [⟨strL "1", strL "Aaa Bbb - X"⟩, ⟨strL "2", strL "Ccc Ddd - Y"⟩] c2oracle (1/2) =
      (improvedCombinedSorted (strL "Zzz Qqq")
        [⟨strL "1", strL "Aaa Bbb - X"⟩, ⟨strL "2", strL "Ccc Ddd - Y"⟩] c2oracle (1/2),
        strL "ambiguous") ∧
    hybrid_search (strL "Zzz Qqq")
        [⟨strL "1", strL "Aaa Bbb - X"⟩, ⟨strL "2", strL "Ccc Ddd - Y"⟩]
        ⟨fun i => if i = 0 then 9/10 else 7/10, fun _ => 0, fun _ => 0, fun _ => 0⟩ (1/2) =
      ([(hybridCombinedSorted (strL "Zzz Qqq")
          [⟨strL "1", strL "Aaa Bbb - X"⟩, ⟨strL "2", strL "Ccc Ddd - Y"⟩]
          ⟨fun i => if i = 0 then 9/10 else 7/10, fun _ => 0, fun _ => 0, fun _ => 0⟩
          (1/2)).headD default], strL "exact") := by
  constructor
  · exact (c2_amended (strL "Zzz Qqq")
      [⟨strL "1", strL "Aaa Bbb - X"⟩, ⟨strL "2", strL "Ccc Ddd - Y"⟩] c2oracle
      ⟨fun i => if i = 0 then 9/10 else 7/10, fun _ => 0, fun _ => 0, fun _ => 0⟩ (1/2)
      (by decide) (by decide) (by decide)).1 (by decide)
  · exact (c2_amended (strL "Zzz Qqq")
      [⟨strL "1", strL "Aaa Bbb - X"⟩, ⟨strL "2", strL "Ccc Ddd - Y"⟩] c2oracle
      ⟨fun i => if i = 0 then 9/10 else 7/10, fun _ => 0, fun _ => 0, fun _ => 0⟩ (1/2)
      (by decide) (by decide) (by decide)).2.2 (by decide) (by decide) (by decide)

/-! ### C6: the fuzzy pass -/

/-- C6: the fuzzy pass is consulted only when the exact pass is empty
(first two conjuncts: with a non-empty exact pass the output is built
without it, with an empty exact pass the combined output consumes it),
and an entity enters the fuzzy pass exactly when its fuzzy ratio is at
least 0.85 (a ratio of exactly 0.85 included), the fuzzy entry carrying
effective score `ratio * 0.95` and label `fuzzy` by construction. -/
theorem c6_theorem (query : Str) (entities : List Entity) (o : SemOracle) (t : ℚ)
    (e : Entity) (he : e ∈ entities)
    (hq : detect_query_type query ≠ strL "partial_name") :
    (exactPass query entities ≠ [] →
      improved_search query entities o t =
        (sortDescBy (fun r => r.similarity) (exactPass query entities), strL "exact")) ∧
    (exactPass query entities = [] →
      improved_search query entities o t =
        (improvedCombinedSorted query entities o t,
          if (improvedCombinedSorted query entities o t).length = 1 ∧
              17/20 ≤ ((improvedCombinedSorted query entities o t).headD default).similarity
          then strL "exact" else strL "ambiguous")) ∧
    (fuzzyEntry query e ∈ fuzzyPass query entities ↔
      17/20 ≤ fuzzy_match_score query (extract_name_parts e.descriptor).full) := by
  refine ⟨fun hex => improved_search_exact query entities o t hq hex,
    fun hex => improved_search_noexact query entities o t hq hex, ?_, ?_⟩
  · intro hmem
    rcases List.mem_filterMap.mp hmem with ⟨a, ha, hfa⟩
    by_cases hc : 17/20 ≤ fuzzy_match_score query (extract_name_parts a.descriptor).full
    · rw [if_pos hc] at hfa
      have hde : a.descriptor = e.descriptor := by
        have := Option.some.inj hfa
        exact congrArg MatchResult.descriptor this
      rw [hde] at hc
      exact hc
    · rw [if_neg hc] at hfa
      exact absurd hfa (by simp)
  · intro hge
    exact List.mem_filterMap.mpr ⟨e, he, by rw [if_pos hge]⟩

/-- C6 witness: the typo query `Jhon Smith` has fuzzy ratio 0.9 against
the name `John Smith`, so the entity enters the fuzzy pass with score
`0.9 * 0.95` and label `fuzzy`. -/
theorem c6_witness :
    fuzzyEntry (strL "Jhon Smith") ⟨strL "1", strL "John Smith - Engineer"⟩ ∈
      fuzzyPass (strL "Jhon Smith") [⟨strL "1", strL "John Smith - Engineer"⟩] ∧
    (fuzzyEntry (strL "Jhon Smith") ⟨strL "1", strL "John Smith - Engineer"⟩).similarity
      = (9/10) * (19/20) ∧
    (fuzzyEntry (strL "Jhon Smith") ⟨strL "1", strL "John Smith - Engineer"⟩).match_type
      = some (strL "fuzzy") := by
  have h := (c6_theorem (strL "Jhon Smith") [⟨strL "1", strL "John Smith - Engineer"⟩]
    zeroSemOracle (1/2) ⟨strL "1", strL "John Smith - Engineer"⟩
    (by decide) (by decide)).2.2
  exact ⟨h.mpr (by decide), by decide, by decide⟩

/-! ### C7: mutation of the entity store -/

/-- C7 counterexample: the base search substring fallback writes the
`similarity` key into the matched entity record — the store after the
call differs from the store before it. -/
theorem c7_counterexample :
    (base_search (strL "john")
        [⟨strL "1", strL "John Smith - Software Engineer at Google", none, none⟩]
        [3/10] (1/2)).1 =
      [⟨strL "1", strL "John Smith - Software Engineer at Google", some (3/10), none⟩] ∧
    (base_search (strL "john")
        [⟨strL "1", strL "John Smith - Software Engineer at Google", none, none⟩]
        [3/10] (1/2)).1 ≠
      [⟨strL "1", strL "John Smith - Software Engineer at Google", none, none⟩] := by
  decide

/-- C7 amended: `ImprovedEntityDisambiguator.search` never mutates the
entity store (its store-passing form returns the store unchanged), and
the base `EntityDisambiguator.search` leaves the store unchanged
whenever any entity scores at or above the threshold — but in its
substring fallback (no entity at or above the threshold) it writes the
`similarity` key into every substring-matching entity record. -/
theorem c7_amended (q : Str) (es : List Entity) (o : SemOracle) (t : ℚ)
    (qb : Str) (esb : List PyEntity) (sims : List ℚ) (tb : ℚ) :
    (improved_search_st q es o t).1 = es ∧
    (baseKept esb sims tb ≠ [] → (base_search qb esb sims tb).1 = esb) ∧
    (baseKept esb sims tb = [] →
      (base_search qb esb sims tb).1 = baseFallbackStore qb esb sims) := by
  refine ⟨rfl, ?_, ?_⟩
  · intro hne
    have hie : (sortDescBy (fun e => e.similarity.getD 0) (baseKept esb sims tb)).isEmpty
        = false := by
      cases hh : sortDescBy (fun e => e.similarity.getD 0) (baseKept esb sims tb) with
      | nil => exact absurd ((sortDescBy_nil_iff _ _).mp hh) hne
      | cons x xs => rfl
    simp only [base_search]
    split_ifs with h1 h2 h3
    · rfl
    · rfl
    · rw [hie] at h3
      exact absurd h3 (by simp)
    · rfl
  · intro hnil
    have hms : sortDescBy (fun e => e.similarity.getD 0) (baseKept esb sims tb) = [] := by
      rw [hnil]; rfl
    simp only [base_search, hms]
    norm_num

/-- C7 witness: the store is unchanged when a match clears the
threshold, and gains a `similarity` key in the substring fallback. -/
theorem c7_witness :
    (base_search (strL "x") [⟨strL "1", strL "John - Dev", none, none⟩] [6/10] (1/2)).1
      = [⟨strL "1", strL "John - Dev", none, none⟩] ∧
    (base_search (strL "john")
        [⟨strL "1", strL "John Smith - Software Engineer at Google", none, none⟩]
        [3/10] (1/2)).1 =
      baseFallbackStore (strL "john")
        [⟨strL "1", strL "John Smith - Software Engineer at Google", none, none⟩] [3/10] := by
  constructor
  · exact (c7_amended (strL "") [] zeroSemOracle 0 (strL "x")
      [⟨strL "1", strL "John - Dev", none, none⟩] [6/10] (1/2)).2.1 (by decide)
  · exact (c7_amended (strL "") [] zeroSemOracle 0 (strL "john")
      [⟨strL "1", strL "John Smith - Software Engineer at Google", none, none⟩]
      [3/10] (1/2)).2.2 (by decide)

/-! ### C8: the reranking decision -/

/-- Four retrieval results with identical scores 0.9. -/
def c8results : List MatchResult :=
  [⟨strL "1", strL "a", 9/10, none, none, none⟩,
   ⟨strL "2", strL "b", 9/10, none, none, none⟩,
   ⟨strL "3", strL "c", 9/10, none, none, none⟩,
   ⟨strL "4", strL "d", 9/10, none, none, none⟩]

/-- C8 counterexample: 4 candidates (not fewer than 4), top score 0.9
not above 0.95, zero variance not above 0.01 — the claimed rule says
rerank, but with a non-`ambiguous` stage-1 match type the code skips
(the variance clause only fires at 5 or more candidates, and the final
fallback requires `ambiguous`). -/
theorem c8_counterexample :
    should_rerank true c8results (strL "partial") = false ∧
    4 ≤ c8results.length ∧
    ¬(19/20 < (c8results.headD default).similarity) ∧
    ¬(1/100 < npVar ((c8results.take 5).map (fun r => r.similarity))) := by decide

/-- C8 amended: reranking happens exactly when a reranker is present,
at least 4 candidates exist, the top retrieval score is not above 0.95,
and either (at least 5 candidates whose top-5 score variance is below
0.01) or the stage-1 match type is `ambiguous`.  When reranking
happens, every final score is
`0.6 * retrieval_score + 0.4 * rerank_score`. -/
theorem c8_amended (hasR : Bool) (results : List MatchResult) (qt : Str)
    (retrieval : List MatchResult) (reranked : List (Nat × ℚ)) :
    (should_rerank hasR results qt = true ↔
      (hasR = true ∧ 4 ≤ results.length ∧
        ¬(19/20 < (results.headD default).similarity) ∧
        ((5 ≤ results.length ∧
            npVar ((results.take 5).map (fun r => r.similarity)) < 1/100) ∨
          qt = strL "ambiguous"))) ∧
    ((blend_final retrieval reranked).map (fun r => r.similarity) =
      reranked.map (fun p =>
        (3/5) * (retrieval.getD p.1 default).similarity + (2/5) * p.2)) := by
  constructor
  · simp only [should_rerank]
    split_ifs with h1 h2 h3
    · simp only [Bool.false_eq_true, false_iff]
      rintro ⟨hr, hlen, -, -⟩
      rcases h1 with h | h
      · rw [hr] at h; exact absurd h (by decide)
      · omega
    · simp only [Bool.false_eq_true, false_iff]
      rintro ⟨-, -, htop, -⟩
      exact htop h2.2
    · simp only [true_iff]
      push_neg at h1
      refine ⟨?_, by omega, ?_, Or.inl h3⟩
      · cases hasR with
        | false => exact absurd rfl h1.1
        | true => rfl
      · intro htop
        refine h2 ⟨?_, htop⟩
        intro hn
        rw [hn] at h1
        simp at h1
    · push_neg at h1
      constructor
      · intro hqt
        refine ⟨?_, by omega, ?_, Or.inr (of_decide_eq_true hqt)⟩
        · cases hasR with
          | false => exact absurd rfl h1.1
          | true => rfl
        · intro htop
          refine h2 ⟨?_, htop⟩
          intro hn
          rw [hn] at h1
          simp at h1
      · rintro ⟨hr, hlen, htop, hc⟩
        rcases hc with hc | hc
        · exact absurd hc h3
        · exact decide_eq_true hc
  · simp only [blend_final, List.map_map]
    rfl

/-! ### C9: properties of the fuzzy ratio

The development below analyses the embedded `SequenceMatcher.ratio`
algorithm: the total matched size never exceeds either window width
(hence the ratio lies in `[0, 1]`), every found block is a genuine
common block (the characters agree), a saturated total forces the two
windows to agree pointwise (hence ratio 1 only for identical inputs),
and on identical inputs the best block is always diagonal, so the first
split covers everything (hence ratio 1 for identical inputs). -/

lemma matchTotal_le (a b : Str) :
    ∀ (N alo ahi blo bhi : Nat), (ahi - alo) + (bhi - blo) ≤ N →
      matchTotal a b alo ahi blo bhi ≤ ahi - alo ∧
      matchTotal a b alo ahi blo bhi ≤ bhi - blo := by
  intro N
  induction N with
  | zero =>
    intro alo ahi blo bhi h
    rw [matchTotal_eq]
    by_cases hpos : 0 < (findLongestMatch a b alo ahi blo bhi).bestsize
    · have hb := flm_bounds a b alo ahi blo bhi hpos
      omega
    · rw [if_neg hpos]
      omega
  | succ n ih =>
    intro alo ahi blo bhi h
    rw [matchTotal_eq]
    by_cases hpos : 0 < (findLongestMatch a b alo ahi blo bhi).bestsize
    · rw [if_pos hpos]
      have hb := flm_bounds a b alo ahi blo bhi hpos
      have ihl := ih alo (findLongestMatch a b alo ahi blo bhi).besti
        blo (findLongestMatch a b alo ahi blo bhi).bestj (by omega)
      have ihr := ih
        ((findLongestMatch a b alo ahi blo bhi).besti +
          (findLongestMatch a b alo ahi blo bhi).bestsize) ahi
        ((findLongestMatch a b alo ahi blo bhi).bestj +
          (findLongestMatch a b alo ahi blo bhi).bestsize) bhi (by omega)
      omega
    · rw [if_neg hpos]
      omega

lemma matchTotal_le_widths (a b : Str) (alo ahi blo bhi : Nat) :
    matchTotal a b alo ahi blo bhi ≤ ahi - alo ∧
    matchTotal a b alo ahi blo bhi ≤ bhi - blo :=
  matchTotal_le a b ((ahi - alo) + (bhi - blo)) alo ahi blo bhi (le_refl _)

lemma smRatioVal_nonneg (a b : Str) : 0 ≤ smRatioVal a b := by
  rw [smRatioVal]
  split_ifs with h
  · norm_num
  · apply div_nonneg
    · positivity
    · positivity

lemma smRatioVal_le_one (a b : Str) : smRatioVal a b ≤ 1 := by
  rw [smRatioVal]
  split_ifs with h
  · norm_num
  · have hM := matchTotal_le_widths a b 0 a.length 0 b.length
    have hpos : (0 : ℚ) < (a.length : ℚ) + (b.length : ℚ) := by
      have h2 : 0 < a.length + b.length := by omega
      exact_mod_cast h2
    rw [div_le_one hpos]
    have h3 : 2 * matchTotal a b 0 a.length 0 b.length ≤ a.length + b.length := by omega
    exact_mod_cast h3

/-- C9 counterexample: the fuzzy ratio is not symmetric — the greedy
longest-block recursion depends on the argument order.  For `ab` against
`bacb` the ratio is 2/3, the swapped ratio is 1/3. -/
theorem c9_counterexample :
    fuzzy_match_score (strL "ab") (strL "bacb") = 2/3 ∧
    fuzzy_match_score (strL "bacb") (strL "ab") = 1/3 ∧
    fuzzy_match_score (strL "ab") (strL "bacb") ≠
      fuzzy_match_score (strL "bacb") (strL "ab") := by decide

/-- Membership in `indexesFrom`. -/
lemma mem_indexesFrom (c : Char) :
    ∀ (l : Str) (s j : Nat),
      j ∈ indexesFrom c l s ↔ ∃ t, t < l.length ∧ j = s + t ∧ l.getD t 'A' = c := by
  intro l
  induction l with
  | nil => intro s j; simp [indexesFrom]
  | cons d ds ih =>
    intro s j
    by_cases hd : d = c
    · simp only [indexesFrom, if_pos hd, List.mem_cons, ih ds.length.succ]
      rw [ih (s + 1) j]
      constructor
      · rintro (rfl | ⟨t, ht, rfl, hc⟩)
        · exact ⟨0, by simp, by omega, by simpa using hd⟩
        · exact ⟨t + 1, by simp; omega, by omega, by simpa using hc⟩
      · rintro ⟨t, ht, rfl, hc⟩
        cases t with
        | zero => exact Or.inl (by omega)
        | succ t2 =>
          refine Or.inr ⟨t2, by simp at ht; omega, by omega, by simpa using hc⟩
    · simp only [indexesFrom, if_neg hd]
      rw [ih (s + 1) j]
      constructor
      · rintro ⟨t, ht, rfl, hc⟩
        exact ⟨t + 1, by simp; omega, by omega, by simpa using hc⟩
      · rintro ⟨t, ht, rfl, hc⟩
        cases t with
        | zero => exact absurd (by simpa using hc) hd
        | succ t2 =>
          exact ⟨t2, by simp at ht; omega, by omega, by simpa using hc⟩

/-- A `b2j` position holds the looked-up character and is in range. -/
lemma chAt_of_mem_b2jList (b : Str) (c : Char) (j : Nat)
    (h : j ∈ b2jList b c) : chAt b j = c ∧ j < b.length := by
  rw [b2jList] at h
  split_ifs at h with hp
  · exact absurd h (List.not_mem_nil _)
  · rcases (mem_indexesFrom c b 0 j).mp h with ⟨t, ht, rfl, hc⟩
    exact ⟨by simpa [chAt] using hc, by omega⟩

/-- Runs recorded in a `j2len` row are genuine common suffix runs ending
at column `i` of `a` and the recorded column of `b`. -/
def RunsOK (a b : Str) (alo blo bhi i : Nat) (f : Nat → Nat) : Prop :=
  ∀ j, 0 < f j → f j ≤ i + 1 - alo ∧ f j ≤ j + 1 - blo ∧ j < bhi ∧
    ∀ s, s < f j → chAt a (i - s) = chAt b (j - s)

/-- The recorded best block is a genuine common block. -/
def BlockOK (a b : Str) (st : FLM) : Prop :=
  ∀ s, s < st.bestsize → chAt a (st.besti + s) = chAt b (st.bestj + s)

lemma innerLoop_match (a b : Str) (alo blo bhi i : Nat) (hal : alo ≤ i)
    (j2 : Nat → Nat) (hj2 : RunsOK a b alo blo bhi (i - 1) j2)
    (hz2 : ∀ j, 0 < j2 j → alo < i) :
    ∀ (js : List Nat) (nj2 : Nat → Nat) (st : FLM),
      (∀ j ∈ js, chAt b j = chAt a i) →
      RunsOK a b alo blo bhi i nj2 → BlockOK a b st →
      RunsOK a b alo blo bhi i (innerLoop blo bhi i j2 js nj2 st).1 ∧
      BlockOK a b (innerLoop blo bhi i j2 js nj2 st).2 := by
  intro js
  induction js with
  | nil => intro nj2 st _ hn hb; exact ⟨hn, hb⟩
  | cons j js ih =>
    intro nj2 st hjs hn hb
    by_cases hlo : j < blo
    · simp only [innerLoop, if_pos hlo]
      exact ih nj2 st (fun x hx => hjs x (List.mem_cons_of_mem j hx)) hn hb
    · by_cases hhi : bhi ≤ j
      · simp only [innerLoop, if_neg hlo, if_pos hhi]
        exact ⟨hn, hb⟩
      · simp only [innerLoop, if_neg hlo, if_neg hhi]
        have hcj : chAt b j = chAt a i := hjs j (List.mem_cons_self j js)
        have hkrun : ∀ s, s < (if j = 0 then 0 else j2 (j - 1)) + 1 →
            chAt a (i - s) = chAt b (j - s) := by
          intro s hs
          cases s with
          | zero => simpa using hcj.symm
          | succ s2 =>
            by_cases h0 : j = 0
            · rw [if_pos h0] at hs; omega
            · rw [if_neg h0] at hs
              have hpos : 0 < j2 (j - 1) := by omega
              have hr := hj2 (j - 1) hpos
              have hch := hr.2.2.2 s2 (by omega)
              have e1 : i - 1 - s2 = i - (s2 + 1) := by omega
              have e2 : j - 1 - s2 = j - (s2 + 1) := by omega
              rw [e1, e2] at hch
              exact hch
        have hk1 : (if j = 0 then 0 else j2 (j - 1)) + 1 ≤ i + 1 - alo := by
          by_cases h0 : j = 0
          · rw [if_pos h0]; omega
          · rw [if_neg h0]
            by_cases hz : 0 < j2 (j - 1)
            · have h1 := (hj2 (j - 1) hz).1
              have h2 := hz2 (j - 1) hz
              omega
            · omega
        have hk2 : (if j = 0 then 0 else j2 (j - 1)) + 1 ≤ j + 1 - blo := by
          by_cases h0 : j = 0
          · rw [if_pos h0]; omega
          · rw [if_neg h0]
            by_cases hz : 0 < j2 (j - 1)
            · have := (hj2 (j - 1) hz).2.1; omega
            · omega
        apply ih
        · exact fun x hx => hjs x (List.mem_cons_of_mem j hx)
        · intro jp hjp
          by_cases hej : jp = j
          · subst hej
            simp only [eq_self_iff_true, if_true] at hjp ⊢
            refine ⟨hk1, hk2, by omega, ?_⟩
            intro s hs
            exact hkrun s hs
          · simp only [if_neg hej] at hjp ⊢
            exact hn jp hjp
        · by_cases hupd : st.bestsize < (if j = 0 then 0 else j2 (j - 1)) + 1
          · simp only [if_pos hupd]
            intro s hs
            dsimp only at hs ⊢
            have hs2 : ((if j = 0 then 0 else j2 (j - 1)) + 1) - 1 - s <
                (if j = 0 then 0 else j2 (j - 1)) + 1 := by omega
            have hch := hkrun (((if j = 0 then 0 else j2 (j - 1)) + 1) - 1 - s) hs2
            have e1 : i - (((if j = 0 then 0 else j2 (j - 1)) + 1) - 1 - s) =
                i + 1 - ((if j = 0 then 0 else j2 (j - 1)) + 1) + s := by omega
            have e2 : j - (((if j = 0 then 0 else j2 (j - 1)) + 1) - 1 - s) =
                j + 1 - ((if j = 0 then 0 else j2 (j - 1)) + 1) + s := by omega
            rw [e1, e2] at hch
            exact hch
          · simp only [if_neg hupd]
            exact hb

lemma outerLoop_match (a b : Str) (alo blo bhi : Nat) :
    ∀ (cnt i : Nat) (j2 : Nat → Nat) (st : FLM), alo ≤ i →
      RunsOK a b alo blo bhi (i - 1) j2 → (∀ j, 0 < j2 j → alo < i) →
      BlockOK a b st →
      BlockOK a b (outerLoop a b blo bhi cnt i j2 st) := by
  intro cnt
  induction cnt with
  | zero => intro i j2 st _ _ _ hb; exact hb
  | succ n ih =>
    intro i j2 st hal hr hz2 hb
    simp only [outerLoop]
    have hmem : ∀ j ∈ b2jList b (chAt a i), chAt b j = chAt a i :=
      fun j hj => (chAt_of_mem_b2jList b (chAt a i) j hj).1
    have h := innerLoop_match a b alo blo bhi i hal j2 hr hz2
      (b2jList b (chAt a i)) (fun _ => 0) st hmem (fun j hj => by simp at hj) hb
    refine ih (i + 1) _ _ (by omega) h.1 (fun j hj => by omega) h.2

lemma extendBackGo_match (a b : Str) (alo blo : Nat) :
    ∀ (fuel : Nat) (st : FLM), BlockOK a b st →
      BlockOK a b (extendBackGo a b alo blo fuel st) := by
  intro fuel
  induction fuel with
  | zero => intro st hb; exact hb
  | succ n ih =>
    intro st hb
    rw [extendBackGo]
    split
    · rename_i h
      apply ih
      intro s hs
      dsimp only at hs ⊢
      cases s with
      | zero =>
        simpa using h.2.2
      | succ s2 =>
        have := hb s2 (by omega)
        have e1 : st.besti - 1 + (s2 + 1) = st.besti + s2 := by omega
        have e2 : st.bestj - 1 + (s2 + 1) = st.bestj + s2 := by omega
        rw [e1, e2]
        exact this
    · exact hb

lemma extendFwdGo_match (a b : Str) (ahi bhi : Nat) :
    ∀ (fuel : Nat) (st : FLM), BlockOK a b st →
      BlockOK a b (extendFwdGo a b ahi bhi fuel st) := by
  intro fuel
  induction fuel with
  | zero => intro st hb; exact hb
  | succ n ih =>
    intro st hb
    rw [extendFwdGo]
    split
    · rename_i h
      apply ih
      intro s hs
      dsimp only at hs ⊢
      by_cases hse : s = st.bestsize
      · subst hse
        exact h.2.2
      · exact hb s (by omega)
    · exact hb

/-- Every block returned by `find_longest_match` is a genuine common
block: the two character windows agree. -/
lemma flm_match (a b : Str) (alo ahi blo bhi : Nat) :
    BlockOK a b (findLongestMatch a b alo ahi blo bhi) := by
  rw [findLongestMatch]
  apply extendFwdGo_match
  apply extendBackGo_match
  apply outerLoop_match a b alo blo bhi (ahi - alo) alo (fun _ => 0)
    (FLM.mk alo blo 0) (le_refl _)
  · intro j hj
    simp at hj
  · intro j hj
    simp at hj
  · intro s hs
    dsimp only at hs
    omega

/-- A saturated match total (equal to both window widths) forces the two
windows to agree pointwise. -/
lemma matchTotal_saturated (a b : Str) :
    ∀ (N alo ahi blo bhi : Nat), (ahi - alo) + (bhi - blo) ≤ N →
      matchTotal a b alo ahi blo bhi = ahi - alo →
      matchTotal a b alo ahi blo bhi = bhi - blo →
      ∀ s, s < ahi - alo → chAt a (alo + s) = chAt b (blo + s) := by
  intro N
  induction N with
  | zero =>
    intro alo ahi blo bhi hN hA hB s hs
    omega
  | succ n ih =>
    intro alo ahi blo bhi hN hA hB s hs
    rw [matchTotal_eq] at hA hB
    by_cases hpos : 0 < (findLongestMatch a b alo ahi blo bhi).bestsize
    · rw [if_pos hpos] at hA hB
      have hb := flm_bounds a b alo ahi blo bhi hpos
      have hLw := matchTotal_le_widths a b alo (findLongestMatch a b alo ahi blo bhi).besti
        blo (findLongestMatch a b alo ahi blo bhi).bestj
      have hRw := matchTotal_le_widths a b
        ((findLongestMatch a b alo ahi blo bhi).besti +
          (findLongestMatch a b alo ahi blo bhi).bestsize) ahi
        ((findLongestMatch a b alo ahi blo bhi).bestj +
          (findLongestMatch a b alo ahi blo bhi).bestsize) bhi
      have hTL1 : matchTotal a b alo (findLongestMatch a b alo ahi blo bhi).besti
          blo (findLongestMatch a b alo ahi blo bhi).bestj =
          (findLongestMatch a b alo ahi blo bhi).besti - alo := by omega
      have hTL2 : matchTotal a b alo (findLongestMatch a b alo ahi blo bhi).besti
          blo (findLongestMatch a b alo ahi blo bhi).bestj =
          (findLongestMatch a b alo ahi blo bhi).bestj - blo := by omega
      have hTR1 : matchTotal a b
          ((findLongestMatch a b alo ahi blo bhi).besti +
            (findLongestMatch a b alo ahi blo bhi).bestsize) ahi
          ((findLongestMatch a b alo ahi blo bhi).bestj +
            (findLongestMatch a b alo ahi blo bhi).bestsize) bhi =
          ahi - ((findLongestMatch a b alo ahi blo bhi).besti +
            (findLongestMatch a b alo ahi blo bhi).bestsize) := by omega
      have hTR2 : matchTotal a b
          ((findLongestMatch a b alo ahi blo bhi).besti +
            (findLongestMatch a b alo ahi blo bhi).bestsize) ahi
          ((findLongestMatch a b alo ahi blo bhi).bestj +
            (findLongestMatch a b alo ahi blo bhi).bestsize) bhi =
          bhi - ((findLongestMatch a b alo ahi blo bhi).bestj +
            (findLongestMatch a b alo ahi blo bhi).bestsize) := by omega
      have hIL := ih alo (findLongestMatch a b alo ahi blo bhi).besti
        blo (findLongestMatch a b alo ahi blo bhi).bestj (by omega) hTL1 hTL2
      have hIR := ih
        ((findLongestMatch a b alo ahi blo bhi).besti +
          (findLongestMatch a b alo ahi blo bhi).bestsize) ahi
        ((findLongestMatch a b alo ahi blo bhi).bestj +
          (findLongestMatch a b alo ahi blo bhi).bestsize) bhi (by omega) hTR1 hTR2
      have hBlk := flm_match a b alo ahi blo bhi
      by_cases hc1 : s < (findLongestMatch a b alo ahi blo bhi).besti - alo
      · have := hIL s hc1
        exact this
      · by_cases hc2 : s < ((findLongestMatch a b alo ahi blo bhi).besti - alo) +
            (findLongestMatch a b alo ahi blo bhi).bestsize
        · have hch := hBlk (s - ((findLongestMatch a b alo ahi blo bhi).besti - alo))
            (by omega)
          have e1 : (findLongestMatch a b alo ahi blo bhi).besti +
              (s - ((findLongestMatch a b alo ahi blo bhi).besti - alo)) = alo + s := by
            omega
          have e2 : (findLongestMatch a b alo ahi blo bhi).bestj +
              (s - ((findLongestMatch a b alo ahi blo bhi).besti - alo)) = blo + s := by
            omega
          rw [e1, e2] at hch
          exact hch
        · have hch := hIR (s - (((findLongestMatch a b alo ahi blo bhi).besti - alo) +
            (findLongestMatch a b alo ahi blo bhi).bestsize)) (by omega)
          have e1 : (findLongestMatch a b alo ahi blo bhi).besti +
              (findLongestMatch a b alo ahi blo bhi).bestsize +
              (s - (((findLongestMatch a b alo ahi blo bhi).besti - alo) +
                (findLongestMatch a b alo ahi blo bhi).bestsize)) = alo + s := by omega
          have e2 : (findLongestMatch a b alo ahi blo bhi).bestj +
              (findLongestMatch a b alo ahi blo bhi).bestsize +
              (s - (((findLongestMatch a b alo ahi blo bhi).besti - alo) +
                (findLongestMatch a b alo ahi blo bhi).bestsize)) = blo + s := by omega
          rw [e1, e2] at hch
          exact hch
    · rw [if_neg hpos] at hA
      omega

/-- Two lists of equal length that agree under `chAt` are equal. -/
lemma eq_of_chAt_eq (a b : Str) (hlen : a.length = b.length)
    (h : ∀ s, s < a.length → chAt a s = chAt b s) : a = b := by
  apply List.ext_getElem hlen
  intro i h1 h2
  have := h i h1
  rw [chAt, chAt, List.getD_eq_getElem a 'A' h1, List.getD_eq_getElem b 'A' h2] at this
  exact this

/-- A ratio of exactly 1 forces the inputs to be identical. -/
lemma eq_of_smRatioVal_eq_one (a b : Str) (h : smRatioVal a b = 1) : a = b := by
  rw [smRatioVal] at h
  split_ifs at h with h0
  · have ha : a = [] := List.length_eq_zero.mp (by omega)
    have hb : b = [] := List.length_eq_zero.mp (by omega)
    rw [ha, hb]
  · have hM := matchTotal_le_widths a b 0 a.length 0 b.length
    have hpos : (0 : ℚ) < (a.length : ℚ) + (b.length : ℚ) := by
      have h2 : 0 < a.length + b.length := by omega
      exact_mod_cast h2
    rw [div_eq_one_iff_eq (ne_of_gt hpos)] at h
    have h2 : 2 * matchTotal a b 0 a.length 0 b.length = a.length + b.length := by
      exact_mod_cast h
    have hMa : matchTotal a b 0 a.length 0 b.length = a.length := by omega
    have hMb : matchTotal a b 0 a.length 0 b.length = b.length := by omega
    have hlen : a.length = b.length := by omega
    apply eq_of_chAt_eq a b hlen
    intro s hs
    have := matchTotal_saturated a b (a.length + b.length) 0 a.length 0 b.length
      (by omega) (by simpa using hMa) (by simpa using hMb) s (by omega)
    simpa using this

/-! #### The diagonal argument: on identical inputs the inner loop only
ever records diagonal blocks, so the extension loops stretch the block
to the whole string and the ratio is 1. -/

/-- `j2len` semantics on identical inputs: the run length the algorithm
associates with cell `(i, j)` (0 when the cell is never processed). -/
def runlen (a : Str) : Nat → Nat → Nat
  | 0, j => if 0 < a.length ∧ j ∈ b2jList a (chAt a 0) then 1 else 0
  | i + 1, 0 => if i + 1 < a.length ∧ 0 ∈ b2jList a (chAt a (i + 1)) then 1 else 0
  | i + 1, j + 1 =>
    if i + 1 < a.length ∧ (j + 1) ∈ b2jList a (chAt a (i + 1)) then runlen a i j + 1
    else 0

lemma runlen_eq_zero_of_not_mem (a : Str) (i j : Nat)
    (h : j ∉ b2jList a (chAt a i)) : runlen a i j = 0 := by
  cases i with
  | zero =>
    cases j with
    | zero => rw [runlen, if_neg (by tauto)]
    | succ j2 => rw [runlen, if_neg (by tauto)]
  | succ i2 =>
    cases j with
    | zero => rw [runlen, if_neg (by tauto)]
    | succ j2 => rw [runlen, if_neg (by tauto)]

lemma not_popular_of_mem_b2jList (b : Str) (c : Char) (j : Nat)
    (h : j ∈ b2jList b c) : isPopular b c = false := by
  rw [b2jList] at h
  split_ifs at h with hp
  · exact absurd h (List.not_mem_nil _)
  · simpa using hp

lemma self_mem_b2jList (a : Str) (i : Nat) (hi : i < a.length)
    (hnp : isPopular a (chAt a i) = false) : i ∈ b2jList a (chAt a i) := by
  rw [b2jList, if_neg (by simp [hnp])]
  exact (mem_indexesFrom (chAt a i) a 0 i).mpr ⟨i, hi, by omega, rfl⟩

/-- On identical inputs, a diagonal cell dominates every off-diagonal
cell on the same row or column. -/
lemma runlen_le_diag (a : Str) :
    ∀ (i j : Nat), runlen a i j ≤ runlen a (min i j) (min i j) := by
  intro i
  induction i with
  | zero =>
    intro j
    by_cases hc : 0 < a.length ∧ j ∈ b2jList a (chAt a 0)
    · have hch := chAt_of_mem_b2jList a (chAt a 0) j hc.2
      have hnp := not_popular_of_mem_b2jList a (chAt a 0) j hc.2
      have h00 : (0 : Nat) ∈ b2jList a (chAt a 0) := self_mem_b2jList a 0 hc.1 hnp
      have hl : runlen a 0 j ≤ 1 := by
        cases j with
        | zero =>
          rw [runlen]
          split_ifs
          all_goals omega
        | succ j2 =>
          rw [runlen]
          split_ifs
          all_goals omega
      have hr : runlen a (min 0 j) (min 0 j) = 1 := by
        simp only [Nat.zero_min]
        rw [runlen, if_pos ⟨hc.1, h00⟩]
      omega
    · cases j with
      | zero => rw [runlen, if_neg hc]; omega
      | succ j2 => rw [runlen, if_neg hc]; omega
  | succ i2 ih =>
    intro j
    cases j with
    | zero =>
      by_cases hc : i2 + 1 < a.length ∧ (0 : Nat) ∈ b2jList a (chAt a (i2 + 1))
      · have hch := chAt_of_mem_b2jList a (chAt a (i2 + 1)) 0 hc.2
        have hnp := not_popular_of_mem_b2jList a (chAt a (i2 + 1)) 0 hc.2
        have h00 : (0 : Nat) ∈ b2jList a (chAt a 0) := by
          rw [hch.1]
          exact hc.2
        have hr : runlen a (min (i2 + 1) 0) (min (i2 + 1) 0) = 1 := by
          simp only [Nat.min_zero]
          rw [runlen, if_pos ⟨by omega, h00⟩]
        rw [runlen, if_pos hc, hr]
      · rw [runlen, if_neg hc]; omega
    | succ j2 =>
      by_cases hc : i2 + 1 < a.length ∧ (j2 + 1) ∈ b2jList a (chAt a (i2 + 1))
      · have hch := chAt_of_mem_b2jList a (chAt a (i2 + 1)) (j2 + 1) hc.2
        have hnp := not_popular_of_mem_b2jList a (chAt a (i2 + 1)) (j2 + 1) hc.2
        have hmem : min (i2 + 1) (j2 + 1) ∈ b2jList a (chAt a (min (i2 + 1) (j2 + 1))) := by
          by_cases hij : i2 + 1 ≤ j2 + 1
          · have hmin : min (i2 + 1) (j2 + 1) = i2 + 1 := by omega
            rw [hmin]
            exact self_mem_b2jList a (i2 + 1) hc.1 hnp
          · have hmin : min (i2 + 1) (j2 + 1) = j2 + 1 := by omega
            rw [hmin, hch.1]
            exact hc.2
        have hminlt : min (i2 + 1) (j2 + 1) < a.length := by
          have := hch.2
          omega
        have hstep : runlen a (min (i2 + 1) (j2 + 1)) (min (i2 + 1) (j2 + 1)) =
            runlen a (min i2 j2) (min i2 j2) + 1 := by
          have hm : min (i2 + 1) (j2 + 1) = min i2 j2 + 1 := by omega
          rw [hm]
          rw [hm] at hmem
          rw [runlen, if_pos ⟨by omega, hmem⟩]
        rw [runlen, if_pos hc, hstep]
        have := ih j2
        omega
      · rw [runlen, if_neg hc]; omega

/-- The previous `j2len` row seen when the outer loop reaches row `i`
(the zero row for the first iteration). -/
def prevRow (a : Str) (i : Nat) : Nat → Nat :=
  fun j => if i = 0 then 0 else runlen a (i - 1) j

lemma kEq (a : Str) (i j : Nat) (hin : i < a.length)
    (hj : j ∈ b2jList a (chAt a i)) :
    (if j = 0 then 0 else prevRow a i (j - 1)) + 1 = runlen a i j := by
  cases i with
  | zero =>
    cases j with
    | zero =>
      rw [if_pos rfl, runlen, if_pos ⟨hin, hj⟩]
    | succ j2 =>
      rw [if_neg (by omega), runlen, if_pos ⟨hin, hj⟩]
      simp [prevRow]
  | succ i2 =>
    cases j with
    | zero =>
      rw [if_pos rfl, runlen, if_pos ⟨hin, hj⟩]
    | succ j2 =>
      rw [if_neg (by omega), runlen, if_pos ⟨hin, hj⟩]
      simp [prevRow]

/-- The state component of the inner loop does not depend on the row
being accumulated. -/
lemma innerLoop_st_indep (blo bhi i : Nat) (j2 : Nat → Nat) :
    ∀ (js : List Nat) (nj2 nj2p : Nat → Nat) (st : FLM),
      (innerLoop blo bhi i j2 js nj2 st).2 = (innerLoop blo bhi i j2 js nj2p st).2 := by
  intro js
  induction js with
  | nil => intro nj2 nj2p st; rfl
  | cons j js ih =>
    intro nj2 nj2p st
    by_cases hlo : j < blo
    · simp only [innerLoop, if_pos hlo]
      exact ih nj2 nj2p st
    · by_cases hhi : bhi ≤ j
      · simp only [innerLoop, if_neg hlo, if_pos hhi]
      · simp only [innerLoop, if_neg hlo, if_neg hhi]
        exact ih _ _ _

/-- If every processed cell has a run value at most the current best
size, the state never changes. -/
lemma innerLoop_noUpd (blo bhi i : Nat) (j2 : Nat → Nat) :
    ∀ (js : List Nat) (nj2 : Nat → Nat) (st : FLM),
      (∀ j ∈ js, blo ≤ j → j < bhi →
        (if j = 0 then 0 else j2 (j - 1)) + 1 ≤ st.bestsize) →
      (innerLoop blo bhi i j2 js nj2 st).2 = st := by
  intro js
  induction js with
  | nil => intro nj2 st _; rfl
  | cons j js ih =>
    intro nj2 st hk
    by_cases hlo : j < blo
    · simp only [innerLoop, if_pos hlo]
      exact ih nj2 st (fun x hx => hk x (List.mem_cons_of_mem j hx))
    · by_cases hhi : bhi ≤ j
      · simp only [innerLoop, if_neg hlo, if_pos hhi]
      · have hle := hk j (List.mem_cons_self j js) (by omega) (by omega)
        have hni : ¬ st.bestsize < (if j = 0 then 0 else j2 (j - 1)) + 1 := by omega
        simp only [innerLoop, if_neg hlo, if_neg hhi, if_neg hni]
        exact ih _ st (fun x hx => hk x (List.mem_cons_of_mem j hx))

/-- With no break in the first segment, the inner loop splits over list
append. -/
lemma innerLoop_append (blo bhi i : Nat) (j2 : Nat → Nat) :
    ∀ (l1 l2 : List Nat) (nj2 : Nat → Nat) (st : FLM),
      (∀ j ∈ l1, j < bhi) →
      innerLoop blo bhi i j2 (l1 ++ l2) nj2 st =
        innerLoop blo bhi i j2 l2 (innerLoop blo bhi i j2 l1 nj2 st).1
          (innerLoop blo bhi i j2 l1 nj2 st).2 := by
  intro l1
  induction l1 with
  | nil => intro l2 nj2 st _; rfl
  | cons j l1 ih =>
    intro l2 nj2 st hbr
    have hj : j < bhi := hbr j (List.mem_cons_self j l1)
    by_cases hlo : j < blo
    · simp only [List.cons_append, innerLoop, if_pos hlo]
      exact ih l2 nj2 st (fun x hx => hbr x (List.mem_cons_of_mem j hx))
    · simp only [List.cons_append, innerLoop, if_neg hlo, if_neg (by omega : ¬ bhi ≤ j)]
      exact ih l2 _ _ (fun x hx => hbr x (List.mem_cons_of_mem j hx))

/-- Cells never processed keep their accumulated row value. -/
lemma innerLoop_row_not_mem (blo bhi i : Nat) (j2 : Nat → Nat) :
    ∀ (js : List Nat) (nj2 : Nat → Nat) (st : FLM) (jq : Nat), jq ∉ js →
      (innerLoop blo bhi i j2 js nj2 st).1 jq = nj2 jq := by
  intro js
  induction js with
  | nil => intro nj2 st jq _; rfl
  | cons j js ih =>
    intro nj2 st jq hq
    have hq1 : jq ≠ j := fun h => hq (h ▸ List.mem_cons_self j js)
    have hq2 : jq ∉ js := fun h => hq (List.mem_cons_of_mem j h)
    by_cases hlo : j < blo
    · simp only [innerLoop, if_pos hlo]
      exact ih nj2 st jq hq2
    · by_cases hhi : bhi ≤ j
      · simp only [innerLoop, if_neg hlo, if_pos hhi]
      · simp only [innerLoop, if_neg hlo, if_neg hhi]
        rw [ih _ _ jq hq2]
        simp [hq1]

/-- Processed cells receive their `k` value (strictly ascending lists
have no duplicates, so the value is never overwritten). -/
lemma innerLoop_row_mem (blo bhi i : Nat) (j2 : Nat → Nat) :
    ∀ (js : List Nat) (nj2 : Nat → Nat) (st : FLM) (jq : Nat),
      js.Pairwise (fun p q => p < q) → (∀ j ∈ js, blo ≤ j ∧ j < bhi) → jq ∈ js →
      (innerLoop blo bhi i j2 js nj2 st).1 jq =
        (if jq = 0 then 0 else j2 (jq - 1)) + 1 := by
  intro js
  induction js with
  | nil => intro nj2 st jq _ _ hm; exact absurd hm (List.not_mem_nil _)
  | cons j js ih =>
    intro nj2 st jq hp hb hm
    have hj := hb j (List.mem_cons_self j js)
    simp only [innerLoop, if_neg (by omega : ¬ j < blo), if_neg (by omega : ¬ bhi ≤ j)]
    rcases List.mem_cons.mp hm with rfl | hm2
    · have hnot : jq ∉ js := by
        intro hx
        have := (List.pairwise_cons.mp hp).1 jq hx
        omega
      rw [innerLoop_row_not_mem blo bhi i j2 js _ _ jq hnot]
      simp
    · exact ih _ _ jq (List.pairwise_cons.mp hp).2
        (fun x hx => hb x (List.mem_cons_of_mem j hx)) hm2

lemma indexesFrom_lb (c : Char) :
    ∀ (l : Str) (s : Nat), ∀ j ∈ indexesFrom c l s, s ≤ j := by
  intro l s j hj
  rcases (mem_indexesFrom c l s j).mp hj with ⟨t, -, rfl, -⟩
  omega

lemma indexesFrom_pairwise (c : Char) :
    ∀ (l : Str) (s : Nat), (indexesFrom c l s).Pairwise (fun p q => p < q) := by
  intro l
  induction l with
  | nil => intro s; simp [indexesFrom]
  | cons d ds ih =>
    intro s
    by_cases hd : d = c
    · rw [indexesFrom, if_pos hd]
      refine List.pairwise_cons.mpr ⟨?_, ih (s + 1)⟩
      intro j hj
      have := indexesFrom_lb c ds (s + 1) j hj
      omega
    · rw [indexesFrom, if_neg hd]
      exact ih (s + 1)

lemma b2jList_pairwise (b : Str) (c : Char) :
    (b2jList b c).Pairwise (fun p q => p < q) := by
  rw [b2jList]
  split_ifs
  · simp
  · exact indexesFrom_pairwise c b 0

lemma sorted_split (i : Nat) :
    ∀ (l : List Nat), l.Pairwise (fun p q => p < q) → i ∈ l →
      ∃ L R, l = L ++ i :: R ∧ (∀ x ∈ L, x < i) ∧ (∀ x ∈ R, i < x) := by
  intro l
  induction l with
  | nil => intro _ hm; exact absurd hm (List.not_mem_nil _)
  | cons y ys ih =>
    intro hp hm
    rcases List.mem_cons.mp hm with rfl | hm2
    · exact ⟨[], ys, rfl, by simp, (List.pairwise_cons.mp hp).1⟩
    · rcases ih (List.pairwise_cons.mp hp).2 hm2 with ⟨L, R, hsp, hL, hR⟩
      refine ⟨y :: L, R, by rw [hsp, List.cons_append], ?_, hR⟩
      intro x hx
      rcases List.mem_cons.mp hx with rfl | hx2
      · exact (List.pairwise_cons.mp hp).1 i hm2
      · exact hL x hx2

lemma innerLoop_full_row (a : Str) (i : Nat) (hin : i < a.length) (j2 : Nat → Nat)
    (hj2 : ∀ j, j2 j = prevRow a i j) (st : FLM) :
    ∀ jq, (innerLoop 0 a.length i j2 (b2jList a (chAt a i)) (fun _ => 0) st).1 jq
      = runlen a i jq := by
  intro jq
  by_cases hm : jq ∈ b2jList a (chAt a i)
  · rw [innerLoop_row_mem 0 a.length i j2 (b2jList a (chAt a i)) (fun _ => 0) st jq
      (b2jList_pairwise a (chAt a i))
      (fun j hj => ⟨by omega, (chAt_of_mem_b2jList a (chAt a i) j hj).2⟩) hm]
    rw [← kEq a i jq hin hm]
    congr 1
    by_cases h0 : jq = 0
    · rw [if_pos h0, if_pos h0]
    · rw [if_neg h0, if_neg h0, hj2]
  · rw [innerLoop_row_not_mem 0 a.length i j2 (b2jList a (chAt a i)) (fun _ => 0) st jq hm]
    exact (runlen_eq_zero_of_not_mem a i jq hm).symm

lemma innerLoop_diag_step (a : Str) (i : Nat) (hin : i < a.length) (j2 : Nat → Nat)
    (hj2 : ∀ j, j2 j = prevRow a i j) (st : FLM) (hdiag : st.besti = st.bestj)
    (hdom : ∀ i2, i2 < i → runlen a i2 i2 ≤ st.bestsize) :
    (innerLoop 0 a.length i j2 (b2jList a (chAt a i)) (fun _ => 0) st).2.besti =
      (innerLoop 0 a.length i j2 (b2jList a (chAt a i)) (fun _ => 0) st).2.bestj ∧
    st.bestsize ≤
      (innerLoop 0 a.length i j2 (b2jList a (chAt a i)) (fun _ => 0) st).2.bestsize ∧
    (∀ i2, i2 ≤ i → runlen a i2 i2 ≤
      (innerLoop 0 a.length i j2 (b2jList a (chAt a i)) (fun _ => 0) st).2.bestsize) := by
  by_cases hnil : b2jList a (chAt a i) = []
  · rw [hnil]
    refine ⟨hdiag, le_refl _, ?_⟩
    intro i2 hi2
    rcases Nat.lt_or_ge i2 i with h | h
    · exact hdom i2 h
    · have hieq : i2 = i := by omega
      subst hieq
      have hz : runlen a i2 i2 = 0 := by
        apply runlen_eq_zero_of_not_mem
        rw [hnil]
        exact List.not_mem_nil _
      omega
  · have hmemi : i ∈ b2jList a (chAt a i) := by
      rcases List.exists_mem_of_ne_nil _ hnil with ⟨j0, hj0⟩
      exact self_mem_b2jList a i hin (not_popular_of_mem_b2jList a (chAt a i) j0 hj0)
    obtain ⟨L, R, hsp, hL, hR⟩ :=
      sorted_split i (b2jList a (chAt a i)) (b2jList_pairwise a (chAt a i)) hmemi
    have hmemL : ∀ j ∈ L, j ∈ b2jList a (chAt a i) := by
      intro j hj
      rw [hsp]
      exact List.mem_append_left _ hj
    have hmemR : ∀ j ∈ R, j ∈ b2jList a (chAt a i) := by
      intro j hj
      rw [hsp]
      exact List.mem_append_right _ (List.mem_cons_of_mem i hj)
    have hkof : ∀ j ∈ b2jList a (chAt a i),
        (if j = 0 then 0 else j2 (j - 1)) + 1 = runlen a i j := by
      intro j hj
      rw [← kEq a i j hin hj]
      congr 1
      by_cases h0 : j = 0
      · rw [if_pos h0, if_pos h0]
      · rw [if_neg h0, if_neg h0, hj2]
    rw [hsp, innerLoop_append 0 a.length i j2 L (i :: R) (fun _ => 0) st
      (fun j hj => (chAt_of_mem_b2jList a (chAt a i) j (hmemL j hj)).2)]
    have hstL : (innerLoop 0 a.length i j2 L (fun _ => 0) st).2 = st := by
      apply innerLoop_noUpd
      intro j hj _ _
      rw [hkof j (hmemL j hj)]
      calc runlen a i j ≤ runlen a (min i j) (min i j) := runlen_le_diag a i j
        _ = runlen a j j := by rw [min_eq_right (by have := hL j hj; omega)]
        _ ≤ st.bestsize := hdom j (hL j hj)
    rw [hstL]
    simp only [innerLoop, if_neg (by omega : ¬ i < 0), if_neg (by omega : ¬ a.length ≤ i)]
    have hki : (if i = 0 then 0 else j2 (i - 1)) + 1 = runlen a i i := hkof i hmemi
    have hstR : ∀ (nj2 : Nat → Nat) (stp : FLM), runlen a i i ≤ stp.bestsize →
        (innerLoop 0 a.length i j2 R nj2 stp).2 = stp := by
      intro nj2 stp hsz
      apply innerLoop_noUpd
      intro j hj _ _
      rw [hkof j (hmemR j hj)]
      calc runlen a i j ≤ runlen a (min i j) (min i j) := runlen_le_diag a i j
        _ = runlen a i i := by rw [min_eq_left (by have := hR j hj; omega)]
        _ ≤ stp.bestsize := hsz
    by_cases hupd : st.bestsize < (if i = 0 then 0 else j2 (i - 1)) + 1
    · simp only [if_pos hupd]
      rw [hstR _ _ (by dsimp only; omega)]
      refine ⟨rfl, by dsimp only; omega, ?_⟩
      intro i2 hi2
      dsimp only
      rcases Nat.lt_or_ge i2 i with h | h
      · have := hdom i2 h
        omega
      · have hieq : i2 = i := by omega
        subst hieq
        omega
    · simp only [if_neg hupd]
      rw [hstR _ _ (by omega)]
      refine ⟨hdiag, le_refl _, ?_⟩
      intro i2 hi2
      rcases Nat.lt_or_ge i2 i with h | h
      · exact hdom i2 h
      · have hieq : i2 = i := by omega
        subst hieq
        omega

lemma outerLoop_diag (a : Str) :
    ∀ (cnt i : Nat) (j2 : Nat → Nat) (st : FLM),
      i + cnt ≤ a.length →
      (∀ j, j2 j = prevRow a i j) →
      st.besti = st.bestj →
      (∀ i2, i2 < i → runlen a i2 i2 ≤ st.bestsize) →
      (outerLoop a a 0 a.length cnt i j2 st).besti =
        (outerLoop a a 0 a.length cnt i j2 st).bestj := by
  intro cnt
  induction cnt with
  | zero => intro i j2 st _ _ hdiag _; exact hdiag
  | succ n ih =>
    intro i j2 st hcnt hj2 hdiag hdom
    simp only [outerLoop]
    have hin : i < a.length := by omega
    have hstep := innerLoop_diag_step a i hin j2 hj2 st hdiag hdom
    apply ih (i + 1) _ _ (by omega)
    · intro j
      rw [innerLoop_full_row a i hin j2 hj2 st j]
      rw [prevRow, if_neg (by omega)]
      simp
    · exact hstep.1
    · intro i2 hi2
      exact hstep.2.2 i2 (by omega)

lemma extendBackGo_diag (a : Str) :
    ∀ (fuel : Nat) (st : FLM), st.besti = st.bestj → fuel = st.besti →
      extendBackGo a a 0 0 fuel st = FLM.mk 0 0 (st.bestsize + st.besti) := by
  intro fuel
  induction fuel with
  | zero =>
    intro st hdiag hfuel
    obtain ⟨bi, bj, bs⟩ := st
    dsimp only at hdiag hfuel
    subst hdiag
    rw [← hfuel]
    rfl
  | succ f ih =>
    intro st hdiag hfuel
    obtain ⟨bi, bj, bs⟩ := st
    dsimp only at hdiag hfuel
    subst hdiag
    have hguard : 0 < bi ∧ 0 < bi ∧ chAt a (bi - 1) = chAt a (bi - 1) :=
      ⟨by omega, by omega, rfl⟩
    rw [extendBackGo, if_pos hguard]
    rw [ih (FLM.mk (bi - 1) (bi - 1) (bs + 1)) rfl (by dsimp only; omega)]
    dsimp only
    congr 1
    omega

lemma extendFwdGo_diag (a : Str) :
    ∀ (fuel m : Nat), m ≤ a.length → fuel = a.length - m →
      extendFwdGo a a a.length a.length fuel (FLM.mk 0 0 m) = FLM.mk 0 0 a.length := by
  intro fuel
  induction fuel with
  | zero =>
    intro m hm hfuel
    have : m = a.length := by omega
    rw [this]
    rfl
  | succ f ih =>
    intro m hm hfuel
    rw [extendFwdGo, if_pos ⟨by dsimp only; omega, by dsimp only; omega, rfl⟩]
    exact ih (m + 1) (by omega) (by omega)

/-- On identical inputs `find_longest_match` over the full windows
returns the whole diagonal. -/
lemma flm_refl (a : Str) :
    findLongestMatch a a 0 a.length 0 a.length = FLM.mk 0 0 a.length := by
  rw [findLongestMatch]
  have h0 : ∀ j, (fun _ => (0 : Nat)) j = prevRow a 0 j := by
    intro j
    rw [prevRow, if_pos rfl]
  have hdiag := outerLoop_diag a (a.length - 0) 0 (fun _ => 0) (FLM.mk 0 0 0)
    (by omega) h0 rfl (by omega)
  have hst := outerLoop_stOK a a 0 a.length 0 a.length (a.length - 0) 0 (fun _ => 0)
    (FLM.mk 0 0 0) (by omega) (le_refl _) (fun _ => by simp) (fun _ => by simp)
    ⟨by omega, by omega, by dsimp only; omega, by dsimp only; omega⟩
  set st := outerLoop a a 0 a.length (a.length - 0) 0 (fun _ => 0) (FLM.mk 0 0 0) with hstdef
  have hback : extendBack a a 0 0 st = FLM.mk 0 0 (st.bestsize + st.besti) := by
    rw [extendBack]
    exact extendBackGo_diag a (st.besti - 0) st hdiag (by omega)
  rw [hback]
  have hle : st.bestsize + st.besti ≤ a.length := by
    rcases hst with ⟨h1, h2, h3, h4⟩
    omega
  rw [extendFwd]
  exact extendFwdGo_diag a (a.length - (0 + (st.bestsize + st.besti)))
    (st.bestsize + st.besti) hle (by omega)

/-- Degenerate windows contribute no matches. -/
lemma matchTotal_degenerate (a b : Str) (alo ahi blo bhi : Nat)
    (h : ahi ≤ alo ∨ bhi ≤ blo) : matchTotal a b alo ahi blo bhi = 0 := by
  rw [matchTotal_eq]
  by_cases hpos : 0 < (findLongestMatch a b alo ahi blo bhi).bestsize
  · have hb := flm_bounds a b alo ahi blo bhi hpos
    omega
  · rw [if_neg hpos]

/-- On identical inputs the matched total is the whole length. -/
lemma matchTotal_refl (a : Str) : matchTotal a a 0 a.length 0 a.length = a.length := by
  rw [matchTotal_eq, flm_refl]
  cases hn : a.length with
  | zero =>
    rw [if_neg (by dsimp only; omega)]
  | succ n =>
    rw [if_pos (by dsimp only; omega)]
    dsimp only
    rw [matchTotal_degenerate a a 0 0 0 0 (by omega),
      matchTotal_degenerate a a (0 + (n + 1)) (n + 1) (0 + (n + 1)) (n + 1) (by omega)]
    omega

/-- On identical inputs the ratio is 1. -/
lemma smRatioVal_refl (a : Str) : smRatioVal a a = 1 := by
  rw [smRatioVal]
  by_cases h0 : a.length + a.length = 0
  · rw [if_pos h0]
  · rw [if_neg h0, matchTotal_refl]
    have hpos : (0 : ℚ) < (a.length : ℚ) + (a.length : ℚ) := by
      have h2 : 0 < a.length + a.length := by omega
      exact_mod_cast h2
    rw [div_eq_one_iff_eq (ne_of_gt hpos)]
    ring

/-- The ratio is 1 exactly on identical inputs. -/
lemma smRatioVal_eq_one_iff (a b : Str) : smRatioVal a b = 1 ↔ a = b := by
  constructor
  · exact eq_of_smRatioVal_eq_one a b
  · rintro rfl
    exact smRatioVal_refl a

/-- C9 amended: `fuzzy_match_score` is NOT symmetric (see the
counterexample); it always lies in `[0, 1]`; it equals 1 exactly when
the lower-cased strings are identical; and it equals 0 whenever the
matching blocks have total size 0 and the strings are not both empty. -/
theorem c9_amended (a b : Str) :
    0 ≤ fuzzy_match_score a b ∧ fuzzy_match_score a b ≤ 1 ∧
    (fuzzy_match_score a b = 1 ↔ pyLower a = pyLower b) ∧
    (matchTotal (pyLower a) (pyLower b) 0 (pyLower a).length 0 (pyLower b).length = 0 →
      0 < a.length + b.length → fuzzy_match_score a b = 0) := by
  refine ⟨smRatioVal_nonneg (pyLower a) (pyLower b),
    smRatioVal_le_one (pyLower a) (pyLower b),
    smRatioVal_eq_one_iff (pyLower a) (pyLower b), ?_⟩
  intro hM hlen
  have hne : ¬ ((pyLower a).length + (pyLower b).length = 0) := by
    simp only [pyLower, List.length_map]
    omega
  rw [fuzzy_match_score, smRatioVal, if_neg hne, hM]
  simp

/-- C9 witness: the iff at identical-up-to-case strings, and the
zero-total clause at disjoint strings. -/
theorem c9_witness :
    fuzzy_match_score (strL "John") (strL "JOHN") = 1 ∧
    fuzzy_match_score (strL "ab") (strL "cd") = 0 ∧
    matchTotal (pyLower (strL "ab")) (pyLower (strL "cd")) 0 2 0 2 = 0 := by
  refine ⟨(c9_amended (strL "John") (strL "JOHN")).2.2.1.mpr (by decide),
    ?_, by decide⟩
  exact (c9_amended (strL "ab") (strL "cd")).2.2.2 (by decide) (by decide)

end Potion
